import Mathlib

/-!
Verification of the pypeline library core: the runtime evaluation, caching
and invalidation engine (pypeline/context.py) and the blueprint graph
construction engine (pypeline/graph.py, pypeline/common.py), shallowly
embedded as executable Lean definitions.

Python dicts are modelled as insertion-ordered association lists with the
usual set-or-append assignment; dict iteration order is the list order (the
source runs on Python 2, whose dict order is unspecified - the model fixes
one order, which affects no lookup result).  Mutable object state is passed
explicitly; recursion through the object graph is driven by a fuel
parameter, with fuel exhaustion standing for nontermination.
-/

namespace Pypeline

/-- Python values relevant to the engine.  The engine inspects only the
`_params` named tuple (constructor `vparams`, from pypeline.context.params)
and the plain dict (constructor `vdict`, what pypeline.context.group
builds); every other value is opaque data carried through, for which ints,
strings and None suffice in all theorems. -/
inductive Value where
  | vint : Int → Value
  | vstr : String → Value
  | vnone : Value
  | vparams : List Value → List (String × Value) → Value
  | vdict : List (String × Value) → Value

/-- Association-list lookup (Python dict read: `d[k]`, first match). -/
def lookupA {κ α : Type} [DecidableEq κ] : List (κ × α) → κ → Option α
  | [], _ => none
  | (k', v) :: rest, k => if k' = k then some v else lookupA rest k

/-- Python dict assignment `d[k] = v`: replace the first entry with key `k`
in place, or append a new entry. -/
def setA {κ α : Type} [DecidableEq κ] : List (κ × α) → κ → α → List (κ × α)
  | [], k, v => [(k, v)]
  | (k', v') :: rest, k, v =>
    if k' = k then (k, v) :: rest else (k', v') :: setA rest k v

/-- Python `d.update(e)`: assign every entry of `e` into `d`, in order. -/
def updA {κ α : Type} [DecidableEq κ] (d e : List (κ × α)) : List (κ × α) :=
  e.foldl (fun acc kv => setA acc kv.1 kv.2) d

/-- NodeArgSpec (context.py): signature metadata extracted from the bound
callable - declared positional parameter names, name of the varargs
collector, name of the keyword catch-all (None when absent). -/
structure ArgsSpec where
  args : List String
  varargs : Option String
  keywords : Option String

/-- NodeState._set_kwargs: replace (or update, for replace=false) the
stored kwargs; when the signature has no kwargs catch-all, keys absent from
the declared positional-parameter set are filtered out. -/
def setKwargsFn (spec : ArgsSpec) (cur kwargs : List (String × Value))
    (replace : Bool) : List (String × Value) :=
  let base := if replace then [] else cur
  match spec.keywords with
  | none =>
    kwargs.foldl
      (fun acc kv => if spec.args.contains kv.1 then setA acc kv.1 kv.2 else acc) base
  | some _ => updA base kwargs

/-- One entry of a runtime node's upstream list: either a direct reference
to an upstream NodeState, or a ParamTargetNodeStateWrapper exactly as it is
constructed at its only call site (Context.__init__, line 421):
ParamTargetNodeStateWrapper(target_node, target.param), so the first
positional argument - bound to the `_param_name` attribute - receives the
upstream node state, and the second - bound to `_state` - receives the
target parameter name string. -/
inductive UpRef where
  | direct : Nat → UpRef
  | wrapper : Nat → String → UpRef
deriving DecidableEq

/-- The immutable part of a runtime Context: the wired upstream/downstream
peer lists, and each node's bound callable and signature metadata.  Nothing
in context.py mutates these after Context.__init__. -/
structure CGraph where
  downstream : Nat → List Nat
  upstream : Nat → List UpRef
  func : Nat → List Value → List (String × Value) → Value
  spec : Nat → ArgsSpec

/-- The mutable part of the runtime state, over all nodes at once:
NodeState._dirty, NodeState._cache (None initially and after discard),
NodeState._args, NodeState._kwargs. -/
structure MState where
  dirty : Nat → Bool
  cache : Nat → Value
  args : Nat → List Value
  kwargs : Nat → List (String × Value)

/-- Pointwise update of a per-node field. -/
def updAt {α : Type} (h : Nat → α) (i : Nat) (v : α) : Nat → α :=
  fun k => if k = i then v else h k

/-- End of NodeState._eval_cached's dirty branch: store the computed value
in the cache and clear the dirty flag. -/
def storeCache (i : Nat) (v : Value) (s : MState) : MState :=
  { s with cache := updAt s.cache i v, dirty := updAt s.dirty i false }

/-- Body of NodeStateBase._invalidate's non-dirty branch: mark dirty and
discard the cache (set it back to None). -/
def markInval (i : Nat) (s : MState) : MState :=
  { s with dirty := updAt s.dirty i true, cache := updAt s.cache i Value.vnone }

/-- NodeState._eval's per-upstream accumulation step: a `_params` result is
spread (positional items appended, keyword items update()d into the
combined kwargs), any other result is appended as one positional
argument. -/
def spreadOne (acc : List Value × List (String × Value)) (v : Value) :
    List Value × List (String × Value) :=
  match v with
  | .vparams ps kws => (acc.1 ++ ps, updA acc.2 kws)
  | w => (acc.1 ++ [w], acc.2)

inductive Err where
  | fuelExhausted
  | attributeError
  | valueError
  | typeError
  | keyError
deriving DecidableEq

/-- The pending work of the mutually recursive evaluation methods of
context.py, defunctionalized so that the interpreter below is structurally
recursive on its fuel:
 - `cached i` is NodeStateBase.val / NodeState._eval_cached on node i;
 - `assemble i args kwargs` is NodeState._eval(args, kwargs) on node i;
 - `refs rs cargs ckwargs` is _eval's loop over the remaining upstream
   entries rs, with the combined args/kwargs accumulated so far;
 - `ref r` is one upstream entry's _eval_cached (a NodeState's, or a
   ParamTargetNodeStateWrapper's). -/
inductive Task where
  | cached : Nat → Task
  | assemble : Nat → List Value → List (String × Value) → Task
  | refs : List UpRef → List Value → List (String × Value) → Task
  | ref : UpRef → Task

/-- Result of a task: a value, or (for `refs`) the accumulated combined
args/kwargs. -/
inductive TRes where
  | val : Value → TRes
  | acc : List Value → List (String × Value) → TRes

/-- The evaluation engine of context.py.  Besides the result it returns the
final mutable state and the trace of bound-callable invocations (one node
id per `self.func(*combined_args, **combined_kwargs)` call).

Fidelity notes, keyed to the source:
 - `cached`: if dirty, recompute via _eval with the node's stored
   args/kwargs (kwargs.copy() is the identity here since states are
   values), store the result, clear the flag; else return the cache.
 - `assemble`: combined_args starts empty, combined_kwargs starts as the
   caller-supplied kwargs; each upstream cached value is folded in by
   `spreadOne`; the caller args are appended after the loop; the callable
   is invoked once at the end.
 - `ref` on a wrapper: ParamTargetNodeStateWrapper._eval_cached evaluates
   `self._state._eval_cached()`, but `_state` holds the parameter-name
   string (see `UpRef.wrapper`), and a str has no `_eval_cached`, so the
   call raises AttributeError. -/
def run (g : CGraph) : Nat → Task → MState → Except Err (TRes × MState × List Nat)
  | 0, _, _ => .error .fuelExhausted
  | Nat.succ f, t, s =>
    match t with
    | .cached i =>
      if s.dirty i = true then
        match run g f (.assemble i (s.args i) (s.kwargs i)) s with
        | .error e => .error e
        | .ok (.val v, s1, tr) => .ok (.val v, storeCache i v s1, tr)
        | .ok (.acc _ _, _, _) => .error .typeError
      else .ok (.val (s.cache i), s, [])
    | .assemble i a kw =>
      match run g f (.refs (g.upstream i) [] kw) s with
      | .error e => .error e
      | .ok (.acc ca ck, s1, tr) => .ok (.val (g.func i (ca ++ a) ck), s1, tr ++ [i])
      | .ok (.val _, _, _) => .error .typeError
    | .refs [] ca ck => .ok (.acc ca ck, s, [])
    | .refs (r :: rest) ca ck =>
      match run g f (.ref r) s with
      | .error e => .error e
      | .ok (.val v, s1, tr1) =>
        match run g f (.refs rest (spreadOne (ca, ck) v).1 (spreadOne (ca, ck) v).2) s1 with
        | .error e => .error e
        | .ok (res, s2, tr2) => .ok (res, s2, tr1 ++ tr2)
      | .ok (.acc _ _, _, _) => .error .typeError
    | .ref (.direct u) => run g f (.cached u) s
    | .ref (.wrapper _ _) => .error .attributeError

/-- NodeStateBase.val: cached read. -/
def evalCached (g : CGraph) (fuel i : Nat) (s : MState) :
    Except Err (TRes × MState × List Nat) :=
  run g fuel (.cached i) s

/-- NodeStateBase.__call__: direct (uncached) evaluation with
caller-supplied parameters. -/
def callNode (g : CGraph) (fuel i : Nat) (a : List Value)
    (kw : List (String × Value)) (s : MState) :
    Except Err (TRes × MState × List Nat) :=
  run g fuel (.assemble i a kw) s

/-- NodeStateBase._invalidate, defunctionalized to a worklist: invalidating
a list of nodes depth-first.  An already-dirty head is skipped without
pushing its subtree (the short-circuit); a clean head is marked dirty, its
cache discarded, and its downstream peers pushed in front of the remaining
work, which is exactly the source's recursion order.  The returned trace
lists the processed (marked) nodes. -/
def inval (g : CGraph) : Nat → List Nat → MState → Except Err (MState × List Nat)
  | _, [], s => .ok (s, [])
  | 0, _ :: _, _ => .error .fuelExhausted
  | Nat.succ f, i :: rest, s =>
    if s.dirty i = true then inval g f rest s
    else
      match inval g f (g.downstream i ++ rest) (markInval i s) with
      | .error e => .error e
      | .ok (s', tr) => .ok (s', i :: tr)

/-- NodeState._set_params (reached from NodeStateBase.set): set the
positional arguments, set the keyword arguments with replace=True, then
invalidate this node and its downstream closure. -/
def setParamsN (g : CGraph) (fuel i : Nat) (a : List Value)
    (kw : List (String × Value)) (s : MState) : Except Err (MState × List Nat) :=
  inval g fuel [i]
    { s with args := updAt s.args i a,
             kwargs := updAt s.kwargs i (setKwargsFn (g.spec i) (s.kwargs i) kw true) }

/-- NodeState.update: merge keyword arguments (replace=False, args
untouched), then invalidate. -/
def updateN (g : CGraph) (fuel i : Nat) (kw : List (String × Value))
    (s : MState) : Except Err (MState × List Nat) :=
  inval g fuel [i]
    { s with kwargs := updAt s.kwargs i (setKwargsFn (g.spec i) (s.kwargs i) kw false) }

/- The item tree of a runtime NodeGroup: name-keyed children, each a leaf
NodeState (identified by its node id) or a nested NodeGroup.  A mutual
inductive is used instead of a nested List so that functions over it are
structurally recursive. -/
mutual
inductive CtxItem where
  | leaf : Nat → CtxItem
  | grp : CtxForest → CtxItem
inductive CtxForest where
  | fnil : CtxForest
  | fcons : String → CtxItem → CtxForest → CtxForest
end

/-- Membership test `key in self._items`. -/
def forestHasKey : CtxForest → String → Bool
  | .fnil, _ => false
  | .fcons n _ rest, k => if n = k then true else forestHasKey rest k

/-- Child lookup `self._items[key]` / `self[key]`. -/
def lookupForest : CtxForest → String → Option CtxItem
  | .fnil, _ => none
  | .fcons n it rest, k => if n = k then some it else lookupForest rest k

/- The node ids of all descendant leaf NodeStates, in iteration order. -/
mutual
def leavesI : CtxItem → List Nat
  | .leaf n => [n]
  | .grp f => leavesF f
def leavesF : CtxForest → List Nat
  | .fnil => []
  | .fcons _ it rest => leavesI it ++ leavesF rest
end

/-- The pending work of NodeGroup's parameter-routing methods,
defunctionalized like `Task`:
 - `setPar F ks` is NodeGroup._set_params(ks) on the group with items F;
 - `setGlobF F gl` is _set_global_params(gl)'s loop over the remaining
   items F;
 - `setSpec F sp gl` is _set_params_spec(sp, gl)'s loop over the remaining
   specific entries sp, with F the items of the current group. -/
inductive GTask where
  | setPar : CtxForest → List (String × Value) → GTask
  | setGlobF : CtxForest → List (String × Value) → GTask
  | setSpec : CtxForest → List (String × Value) → List (String × Value) → GTask

/-- The parameter-routing engine of NodeGroup (context.py).

Fidelity notes, keyed to the source:
 - `setPar`: split the supplied kwargs into specific entries (key names a
   direct child) and global entries (everything else), preserving order;
   apply globals first (skipped when empty), then specifics (skipped when
   empty).
 - `setGlobF`: for every leaf NodeState merge the globals into its stored
   kwargs with replace=False and invalidate it; recurse into sub-groups.
 - `setSpec`: a `_params` value is applied via the child's _set_params
   (args replaced, kwargs replaced by dict(global_params,
   **item_params.kwargs)); calling that two-argument _set_params on a
   sub-group raises TypeError (NodeGroup._set_params takes one argument);
   a dict value recurses into the named sub-group's _set_params_spec, and
   on a leaf raises AttributeError (NodeState has no _set_params_spec); a
   missing child name raises KeyError (`self[item_key]`); any other value
   raises ValueError. -/
def grun (g : CGraph) : Nat → GTask → MState → Except Err (MState × List Nat)
  | 0, _, _ => .error .fuelExhausted
  | Nat.succ f, t, s =>
    match t with
    | .setPar F ks =>
      let gl := ks.filter (fun kv => !(forestHasKey F kv.1))
      let sp := ks.filter (fun kv => forestHasKey F kv.1)
      match (if gl.isEmpty then .ok (s, []) else grun g f (.setGlobF F gl) s) with
      | .error e => .error e
      | .ok (s1, tr1) =>
        match (if sp.isEmpty then .ok (s1, []) else grun g f (.setSpec F sp gl) s1) with
        | .error e => .error e
        | .ok (s2, tr2) => .ok (s2, tr1 ++ tr2)
    | .setGlobF .fnil _ => .ok (s, [])
    | .setGlobF (.fcons _ (.leaf n) rest) gl =>
      let s1 := { s with
        kwargs := updAt s.kwargs n (setKwargsFn (g.spec n) (s.kwargs n) gl false) }
      match inval g f [n] s1 with
      | .error e => .error e
      | .ok (s2, tr1) =>
        match grun g f (.setGlobF rest gl) s2 with
        | .error e => .error e
        | .ok (s3, tr2) => .ok (s3, tr1 ++ tr2)
    | .setGlobF (.fcons _ (.grp F') rest) gl =>
      match grun g f (.setGlobF F' gl) s with
      | .error e => .error e
      | .ok (s2, tr1) =>
        match grun g f (.setGlobF rest gl) s2 with
        | .error e => .error e
        | .ok (s3, tr2) => .ok (s3, tr1 ++ tr2)
    | .setSpec _ [] _ => .ok (s, [])
    | .setSpec F ((k, v) :: rest) gl =>
      let step : Except Err (MState × List Nat) :=
        match v with
        | .vparams a kw =>
          match lookupForest F k with
          | none => .error .keyError
          | some (.leaf n) =>
            setParamsN g f n a (updA gl kw) s
          | some (.grp _) => .error .typeError
        | .vdict en =>
          match lookupForest F k with
          | none => .error .keyError
          | some (.grp F') => grun g f (.setSpec F' en gl) s
          | some (.leaf _) => .error .attributeError
        | _ => .error .valueError
      match step with
      | .error e => .error e
      | .ok (s1, tr1) =>
        match grun g f (.setSpec F rest gl) s1 with
        | .error e => .error e
        | .ok (s2, tr2) => .ok (s2, tr1 ++ tr2)

/-- NodeGroup.set / NodeGroup._set_params. -/
def groupSet (g : CGraph) (fuel : Nat) (F : CtxForest)
    (ks : List (String × Value)) (s : MState) : Except Err (MState × List Nat) :=
  grun g fuel (.setPar F ks) s

/-- The child names of a runtime group, in iteration order. -/
def forestKeys : CtxForest → List String
  | .fnil => []
  | .fcons n _ rest => n :: forestKeys rest

/-- The descendant leaves under one named child (empty when the name is
absent). -/
def entryLeaves (F : CtxForest) (name : String) : List Nat :=
  match lookupForest F name with
  | some it => leavesI it
  | none => []

/-- All descendant leaves named by the specific entries of a parameter
specification, in order (NodeGroup._set_params_spec only ever touches
these). -/
def specLeaves (F : CtxForest) : List (String × Value) → List Nat
  | [] => []
  | kv :: rest => entryLeaves F kv.1 ++ specLeaves F rest

/-- The node ids of the direct upstream NodeState references of a node
(parameter-target wrapper entries excluded: they hold no evaluable state
reference). -/
def directUps (g : CGraph) (i : Nat) : List Nat :=
  (g.upstream i).filterMap (fun r => match r with
    | .direct u => some u
    | .wrapper _ _ => none)

/-- The upstream peer of one upstream-list entry: the referenced node for a
direct entry; for a wrapper entry, the node stored in its first slot (which
the wiring always makes the source node, see `UpRef.wrapper`). -/
def refPeer : UpRef → Nat
  | .direct u => u
  | .wrapper pn _ => pn

/-- All upstream peers of a node. -/
def upPeers (g : CGraph) (i : Nat) : List Nat :=
  (g.upstream i).map refPeer

/-- The downstream and upstream lists are two views of the same edge set
(Context.__init__ wires each blueprint edge into both). -/
def Mirror (g : CGraph) : Prop :=
  ∀ i j : Nat, j ∈ g.downstream i ↔ i ∈ upPeers g j

/-- The invariant of claim C10, in downstream form: every downstream peer
of a dirty node is dirty. -/
def InvD (g : CGraph) (s : MState) : Prop :=
  ∀ i j : Nat, s.dirty i = true → j ∈ g.downstream i → s.dirty j = true

/-- The invariant of claim C10, in upstream form: every upstream peer of a
clean node is clean. -/
def InvU (g : CGraph) (s : MState) : Prop :=
  ∀ j : Nat, s.dirty j = false → ∀ u ∈ upPeers g j, s.dirty u = false

/-- Reachability along downstream links. -/
inductive ReachD (g : CGraph) : Nat → Nat → Prop where
  | refl (i : Nat) : ReachD g i i
  | step (i j m : Nat) : j ∈ g.downstream i → ReachD g j m → ReachD g i m

/-- A rank function witnessing that the upstream reference graph is
acyclic: every direct upstream node has strictly smaller rank. -/
def UpRanked (g : CGraph) (rank : Nat → Nat) : Prop :=
  ∀ i : Nat, ∀ u ∈ directUps g i, rank u < rank i

/-- A blueprint edge (common.py EdgeDef): target path plus optional target
parameter name. -/
abbrev EdgeB : Type := List String × Option String

/-- A root blueprint's edge map: absolute path to list of edges. -/
abbrev EdgeMapB : Type := List (List String × List EdgeB)

/-- A model of a Python callable as _store_node sees it: an identity and
the name reflection can recover (None when nothing like func_name exists;
the name of a lambda is the string below). -/
structure FuncV where
  fid : Nat
  fname : Option String
deriving DecidableEq

def lambdaName : String := "<lambda>"

/-- NodeDef (common.py), minus the owner field (cross-graph references are
not needed by the claims below): name, absolute path, bound callable and
default arguments. -/
structure NodeDefM where
  name : String
  path : List String
  func : FuncV
  args : List Value
  kwargs : List (String × Value)

/-- NodeDef.update (common.py): take func, args and kwargs from the other
definition; owner, name, prefix and path are untouched. -/
def ndUpdate (ex other : NodeDefM) : NodeDefM :=
  { ex with func := other.func, args := other.args, kwargs := other.kwargs }

/-- An entry of a blueprint item store: a node definition or a sub-graph.
A sub-graph's own nested item store is irrelevant to the claims below;
only its prefix (and its kind, for the isinstance checks) is kept. -/
inductive BItem where
  | nd : NodeDefM → BItem
  | sub : List String → BItem

/-- One blueprint sub-graph view: its local item dict plus the root's two
edge maps (a root Graph is the view with local items = the root's own). -/
structure BGraph where
  items : List (String × BItem)
  down : EdgeMapB
  up : EdgeMapB

def emptyGraph : BGraph := { items := [], down := [], up := [] }

/-- BaseGraph._store_node_def: an existing node definition under the same
name is updated in place (ValueError if the name holds a sub-graph); a new
name stores the definition and initialises its empty edge-map entries.
Returns the stored definition's path, as the source does. -/
def storeNodeDef (g : BGraph) (nd : NodeDefM) : Except Err (BGraph × List String) :=
  match lookupA g.items nd.name with
  | some (.sub _) => .error .valueError
  | some (.nd ex) =>
    .ok ({ g with items := setA g.items nd.name (.nd (ndUpdate ex nd)) }, nd.path)
  | none =>
    .ok ({ items := setA g.items nd.name (.nd nd),
           down := setA g.down nd.path [],
           up := setA g.up nd.path [] }, nd.path)

/-- The shapes _store_node dispatches on: a NodeDef already owned by this
root (returned as-is), a functools.partial, a NamedFunc, a plain callable,
or a plain tuple (what the top-level pipe builds for a single argument;
no branch accepts a tuple, so only its arity is kept). -/
inductive StoreItem where
  | ndefSame : List String → StoreItem
  | partApp : FuncV → List Value → List (String × Value) → StoreItem
  | named : StoreItem → Option String → StoreItem
  | func : FuncV → StoreItem
  | tuply : Nat → StoreItem

/-- BaseGraph._store_node(item, name, args, kwargs).  Fidelity notes:
 - a NodeDef owned by this graph just returns its path;
 - a partial with extra args/kwargs supplied raises ValueError, otherwise
   recurses on its inner callable with the partial's args/keywords;
 - a NamedFunc recurses on its callable with the wrapped name, dropping
   any caller-supplied args/kwargs (as the source does);
 - a callable with no explicit name derives one from its reflected name;
   an anonymous lambda or a callable with no name raises ValueError;
 - anything else (such as a tuple) raises ValueError. -/
def storeFunc (pre : List String) (g : BGraph) (fv : FuncV)
    (name : Option String) (args : Option (List Value))
    (kwargs : Option (List (String × Value))) : Except Err (BGraph × List String) :=
  let dname : Except Err String :=
    match name with
    | some n => .ok n
    | none =>
      match fv.fname with
      | some n => if n = lambdaName then .error .valueError else .ok n
      | none => .error .valueError
  match dname with
  | .error e => .error e
  | .ok n =>
    storeNodeDef g
      { name := n, path := pre ++ [n], func := fv,
        args := args.getD [], kwargs := kwargs.getD [] }

def storeNode (pre : List String) (g : BGraph) :
    StoreItem → Option String → Option (List Value) →
    Option (List (String × Value)) → Except Err (BGraph × List String)
  | .ndefSame p, _, _, _ => .ok (g, p)
  | .partApp fv a kw, name, args, kwargs =>
    if args.isSome || kwargs.isSome then .error .valueError
    else storeFunc pre g fv name (some a) (some kw)
  | .named inner nm, _, _, _ => storeNode pre g inner nm none none
  | .func fv, name, args, kwargs => storeFunc pre g fv name args kwargs
  | .tuply _, _, _, _ => .error .valueError

/-- One item of a pipe call: either a plain storable item, or an EdgeDef
item (node.param) carrying a target parameter name. -/
structure PipeItem where
  item : StoreItem
  param : Option String

/-- `self._downstream[k].append(e)` (KeyError if the path is absent). -/
def addEdge (m : EdgeMapB) (k : List String) (e : EdgeB) : Except Err EdgeMapB :=
  match lookupA m k with
  | none => .error .keyError
  | some l => .ok (setA m k (l ++ [e]))

/-- First loop of BaseGraph._pipe: store every item, collecting the vertex
list of (path, target param) pairs. -/
def pipeStore (pre : List String) (g : BGraph) :
    List PipeItem → Except Err (BGraph × List (List String × Option String))
  | [] => .ok (g, [])
  | p :: rest =>
    match storeNode pre g p.item none none none with
    | .error e => .error e
    | .ok (g1, path) =>
      match pipeStore pre g1 rest with
      | .error e => .error e
      | .ok (g2, vs) => .ok (g2, (path, p.param) :: vs)

/-- Second loop of BaseGraph._pipe: each consecutive vertex pair gets one
downstream edge (at the source) and its mirror upstream edge (at the
target), both tagged with the target's parameter name. -/
def pipeWire (g : BGraph) : List (List String × Option String) → Except Err BGraph
  | [] => .ok g
  | [_] => .ok g
  | (sp, _) :: (tp, tpar) :: rest =>
    match addEdge g.down sp (tp, tpar) with
    | .error e => .error e
    | .ok d' =>
      match addEdge g.up tp (sp, tpar) with
      | .error e => .error e
      | .ok u' => pipeWire { g with down := d', up := u' } ((tp, tpar) :: rest)

/-- BaseGraph._pipe. -/
def pipeUnder (pre : List String) (g : BGraph) (ps : List PipeItem) :
    Except Err BGraph :=
  match pipeStore pre g ps with
  | .error e => .error e
  | .ok (g1, vs) => pipeWire g1 vs

/-- BaseGraph.pipe: fewer than two nodes raises ValueError, otherwise
_pipe. -/
def pipeMethod (pre : List String) (g : BGraph) (ps : List PipeItem) :
    Except Err BGraph :=
  if ps.length < 2 then .error .valueError else pipeUnder pre g ps

/-- BaseGraph._store for the item kinds of StoreItem: none is a Graph or
SubGraph, so each goes through _store_node. -/
def storeG (g : BGraph) (it : StoreItem) : Except Err BGraph :=
  match storeNode [] g it none none none with
  | .error e => .error e
  | .ok (g1, _) => .ok g1

/-- Graph.__init__ over positional items. -/
def graphInit : List StoreItem → Except Err BGraph
  | [] => .ok emptyGraph
  | items => items.foldlM storeG emptyGraph

/-- Top-level pipe(*args) (graph.py): with exactly one argument it returns
Graph(args) - the whole argument tuple passed as a single item, which no
_store_node branch accepts; otherwise Graph() followed by _pipe(args),
with no arity check of its own. -/
def pipeTop (ps : List PipeItem) : Except Err BGraph :=
  if ps.length = 1 then graphInit [.tuply ps.length]
  else pipeUnder [] emptyGraph ps

/-- Rebase one edge during a merge: the destination prefix is prepended to
its target path; the target parameter is kept. -/
def rebaseE (pre : List String) (e : EdgeB) : EdgeB := (pre ++ e.1, e.2)

/-- _copy_edges (inside BaseGraph._store_graph): for every source edge-map
entry, the rebased key's existing edge list is extended - in a second pass
- with exactly those rebased edges not already structurally present. -/
def copyEdges (pre : List String) (src tgt : EdgeMapB) : Except Err EdgeMapB :=
  src.foldlM
    (fun acc kv =>
      match lookupA acc (pre ++ kv.1) with
      | none => .error .keyError
      | some cur =>
        let rebased := kv.2.map (rebaseE pre)
        let filtered := rebased.filter (fun e => decide (e ∉ cur))
        .ok (setA acc (pre ++ kv.1) (cur ++ filtered)))
    tgt

/-- The edge-map half of BaseGraph._store_graph: _copy_edges applied to the
downstream and the upstream maps. -/
def copyBothEdges (pre : List String) (src tgt : BGraph) : Except Err BGraph :=
  match copyEdges pre src.down tgt.down with
  | .error e => .error e
  | .ok d =>
    match copyEdges pre src.up tgt.up with
    | .error e => .error e
    | .ok u => .ok { tgt with down := d, up := u }

/-- Context.__init__'s _upstream_wire: an edge with no target parameter
contributes a direct reference to the upstream node's state; an edge with
a target parameter contributes
ParamTargetNodeStateWrapper(target_node, target.param) - see
`UpRef.wrapper` for the positional-argument binding. -/
def upstreamRefOf (nodeId : Nat) (param : Option String) : UpRef :=
  match param with
  | none => .direct nodeId
  | some p => .wrapper nodeId p

/-- Context.__init__'s _parse_edges over the upstream map: the upstream
list a node with the given path receives. -/
def wireCtxUpstream (idOf : List String → Nat) (up : EdgeMapB)
    (path : List String) : List UpRef :=
  ((lookupA up path).getD []).map (fun e => upstreamRefOf (idOf e.1) e.2)

/-- Context.__init__'s _parse_edges over the downstream map. -/
def wireCtxDownstream (idOf : List String → Nat) (down : EdgeMapB)
    (path : List String) : List Nat :=
  ((lookupA down path).getD []).map (fun e => idOf e.1)

/-- Specification-side restatement of NodeState._eval's assembly, used to
state claim C5: given the upstream cached values in order, fold them with
`spreadOne` starting from an empty positional list and the caller-supplied
kwargs, then append the caller-supplied args. -/
def assembleFromVals (vals : List Value) (callerArgs : List Value)
    (callerKwargs : List (String × Value)) :
    List Value × List (String × Value) :=
  let p := vals.foldl spreadOne ([], callerKwargs)
  (p.1 ++ callerArgs, p.2)

/-- The per-upstream cached values observed while evaluating a list of
upstream entries in order, threading the mutable state (each entry
evaluated by the engine, at whatever fuel suffices for it). -/
inductive EvalSeq (g : CGraph) :
    List UpRef → MState → List Value → MState → List Nat → Prop where
  | nil (s : MState) : EvalSeq g [] s [] s []
  | cons (r : UpRef) (rest : List UpRef) (s s1 s2 : MState) (v : Value)
      (vs : List Value) (tr1 tr2 : List Nat) :
      (∃ fu, run g fu (.ref r) s = .ok (.val v, s1, tr1)) →
      EvalSeq g rest s1 vs s2 tr2 →
      EvalSeq g (r :: rest) s (v :: vs) s2 (tr1 ++ tr2)

/-- Which nodes' dirty flag or cache a task may touch, bounded through the
rank function: a cached read of i touches at most i and its strict
upstream closure; a direct _eval of i touches only the strict upstream
closure; an upstream-list task touches only the closures of its direct
entries. -/
def stateBound (rank : Nat → Nat) : Task → Nat → Prop
  | .cached i, k => rank k ≤ rank i
  | .assemble i _ _, k => rank k < rank i
  | .refs rs _ _, k => ∃ m, UpRef.direct m ∈ rs ∧ rank k ≤ rank m
  | .ref r, k => ∃ m, r = UpRef.direct m ∧ rank k ≤ rank m

/-- Which nodes' bound callables a task may invoke; as `stateBound`,
except that a direct _eval of i also invokes i itself. -/
def traceBound (rank : Nat → Nat) : Task → Nat → Prop
  | .cached i, k => rank k ≤ rank i
  | .assemble i _ _, k => rank k ≤ rank i
  | .refs rs _ _, k => ∃ m, UpRef.direct m ∈ rs ∧ rank k ≤ rank m
  | .ref r, k => ∃ m, r = UpRef.direct m ∧ rank k ≤ rank m

/-- A node's signature accepts keyword `k` when it has a kwargs catch-all
or declares `k` positionally (the condition NodeState._set_kwargs filters
by). -/
def accepts (spec : ArgsSpec) (k : String) : Bool :=
  spec.keywords.isSome || spec.args.contains k

/-! Concrete example instances, used to exercise the theorems below on
closed inputs. -/

/-- A signature with no declared parameters and no collectors. -/
def exSpec : ArgsSpec := { args := [], varargs := none, keywords := none }

/-- A signature declaring positional parameters x and y, no collectors. -/
def exSpecXY : ArgsSpec := { args := ["x", "y"], varargs := none, keywords := none }

/-- A one-node context: node 0 bound to a constant callable. -/
def exG1 : CGraph :=
  { downstream := fun _ => []
  , upstream := fun _ => []
  , func := fun _ _ _ => Value.vint 5
  , spec := fun _ => exSpec }

/-- A two-node pipeline 0 -> 1: node 0 yields 2, node 1 adds 1 to its
single upstream input. -/
def exG2 : CGraph :=
  { downstream := fun i => if i = 0 then [1] else []
  , upstream := fun i => if i = 1 then [UpRef.direct 0] else []
  , func := fun i a _ =>
      if i = 0 then Value.vint 2
      else
        match a with
        | [Value.vint x] => Value.vint (x + 1)
        | _ => Value.vnone
  , spec := fun _ => exSpec }

/-- Paths of the two-node blueprint a -> b. -/
def exPathOf : Nat → List String := fun i => if i = 0 then ["a"] else ["b"]

/-- The flat path index Context.__init__ builds. -/
def exIdOf : List String → Nat := fun p => if p = ["a"] then 0 else 1

/-- Upstream edge map of the blueprint a -> b.fudge (the b end of the edge
targets parameter fudge, as BaseGraph._pipe records it). -/
def exUpMap : EdgeMapB := [(["b"], [(["a"], some "fudge")]), (["a"], [])]

/-- Downstream edge map of the blueprint a -> b.fudge. -/
def exDownMap : EdgeMapB := [(["a"], [(["b"], some "fudge")]), (["b"], [])]

/-- The runtime context Context.__init__ wires for the blueprint
a -> b.fudge: node 1 (b) receives a parameter-target wrapper entry. -/
def exGW : CGraph :=
  { downstream := fun i => wireCtxDownstream exIdOf exDownMap (exPathOf i)
  , upstream := fun i => wireCtxUpstream exIdOf exUpMap (exPathOf i)
  , func := fun _ _ _ => Value.vint 1
  , spec := fun _ => exSpec }

/-- A clash fixture: node 0 yields a Params bundle carrying keyword ping,
node 1 returns the ping keyword it receives. -/
def exGClash : CGraph :=
  { downstream := fun _ => []
  , upstream := fun i => if i = 1 then [UpRef.direct 0] else []
  , func := fun i _ kwargs =>
      if i = 0 then Value.vparams [] [("ping", Value.vstr "up")]
      else (lookupA kwargs "ping").getD Value.vnone
  , spec := fun _ => exSpec }

/-- The freshly instantiated mutable state: every node dirty, cache None,
no stored arguments. -/
def exS0 : MState :=
  { dirty := fun _ => true, cache := fun _ => Value.vnone
  , args := fun _ => [], kwargs := fun _ => [] }

/-- A fully evaluated (all-clean) mutable state. -/
def exSC : MState :=
  { dirty := fun _ => false, cache := fun _ => Value.vnone
  , args := fun _ => [], kwargs := fun _ => [] }

/-- A stored node definition for the blueprint fixtures. -/
def exND : NodeDefM :=
  { name := "a", path := ["a"], func := { fid := 0, fname := some "a" }
  , args := [], kwargs := [] }

/-- A one-node blueprint holding exND, with its edge-map entries. -/
def exBG : BGraph :=
  { items := [("a", BItem.nd exND)]
  , down := [(["a"], [])]
  , up := [(["a"], [])] }

/-- A merge-source blueprint: nodes a, b with two distinct edges a -> b
(one plain, one targeting parameter p). -/
def exSrcBP : BGraph :=
  { items := []
  , down := [(["a"], [(["b"], none), (["b"], some "p")]), (["b"], [])]
  , up := [(["b"], [(["a"], none), (["a"], some "p")]), (["a"], [])] }

/-- A merge destination that already holds the rebased nodes (as
_copy_structure leaves it) under prefix n, with no edges yet. -/
def exTgtBP : BGraph :=
  { items := []
  , down := [(["n", "a"], []), (["n", "b"], [])]
  , up := [(["n", "b"], []), (["n", "a"], [])] }

/-- The expected result of merging exSrcBP into exTgtBP under prefix n. -/
def exMergedBP : BGraph :=
  { items := []
  , down := [(["n", "a"], [(["n", "b"], none), (["n", "b"], some "p")]),
             (["n", "b"], [])]
  , up := [(["n", "b"], [(["n", "a"], none), (["n", "a"], some "p")]),
           (["n", "a"], [])] }

/-- A signature with a kwargs catch-all (collects every keyword) and one
declared parameter p. -/
def exSpecKw : ArgsSpec := { args := ["p"], varargs := none, keywords := some "kw" }

/-- A signature declaring only `data`, no collectors: it rejects the
keyword `glob`. -/
def exSpecData : ArgsSpec := { args := ["data"], varargs := none, keywords := none }

/-- A two-leaf context for the group-routing claim: node 0 has the
catch-all signature, node 1 only declares `data`; no edges. -/
def exGC4 : CGraph :=
  { downstream := fun _ => []
  , upstream := fun _ => []
  , func := fun _ _ _ => Value.vnone
  , spec := fun i => if i = 0 then exSpecKw else exSpecData }

/-- A group tree with a top-level leaf x (node 0) and a sub-group sub
holding leaf y (node 1). -/
def exFC4 : CtxForest :=
  CtxForest.fcons "x" (CtxItem.leaf 0)
    (CtxForest.fcons "sub"
      (CtxItem.grp (CtxForest.fcons "y" (CtxItem.leaf 1) CtxForest.fnil))
      CtxForest.fnil)

/-- A mixed set(...) call: `glob` names no child (global entry), `x` names
a child (specific entry), and the specific bundle also carries `glob` so
the node-specific value must win. -/
def exKsC4 : List (String × Value) :=
  [("glob", Value.vstr "G"),
   ("x", Value.vparams [Value.vint 7]
     [("p", Value.vstr "S"), ("glob", Value.vstr "N")])]

/-! ### Theorems -/

theorem updAt_self {α : Type} (h : Nat → α) (i : Nat) (v : α) :
    updAt h i v i = v := by
  simp [updAt]

theorem updAt_ne {α : Type} (h : Nat → α) (i k : Nat) (v : α) (hk : k ≠ i) :
    updAt h i v k = h k := by
  simp [updAt, hk]

theorem mem_directUps {g : CGraph} {i m : Nat} :
    m ∈ directUps g i ↔ UpRef.direct m ∈ g.upstream i := by
  unfold directUps
  rw [List.mem_filterMap]
  constructor
  · rintro ⟨r, hr, he⟩
    cases r with
    | direct u =>
      simp at he
      exact he ▸ hr
    | wrapper _ _ => simp at he
  · intro h
    exact ⟨.direct m, h, rfl⟩

theorem lookupA_setA_self {κ α : Type} [DecidableEq κ]
    (d : List (κ × α)) (k : κ) (v : α) : lookupA (setA d k v) k = some v := by
  induction d with
  | nil => simp [setA, lookupA]
  | cons hd tl ih =>
    by_cases h : hd.1 = k
    · simp [setA, h, lookupA]
    · simp [setA, h, lookupA, ih]

theorem lookupA_setA_ne {κ α : Type} [DecidableEq κ]
    (d : List (κ × α)) (k k' : κ) (v : α) (h : k ≠ k') :
    lookupA (setA d k v) k' = lookupA d k' := by
  induction d with
  | nil => simp [setA, lookupA, h]
  | cons hd tl ih =>
    by_cases hk : hd.1 = k
    · simp [setA, hk, lookupA, h]
    · simp [setA, hk, lookupA, ih]

theorem lookupA_eq_none_of_not_mem {κ α : Type} [DecidableEq κ]
    (e : List (κ × α)) (k : κ) (h : k ∉ e.map Prod.fst) : lookupA e k = none := by
  induction e with
  | nil => rfl
  | cons hd tl ih =>
    simp only [List.map_cons, List.mem_cons] at h
    push_neg at h
    have h1 : ¬ hd.1 = k := fun hh => h.1 hh.symm
    simp [lookupA, h1, ih h.2]

/-- Reading an updated dict: entries of `e` (a dict, so with unique keys)
win over entries of `d`. -/
theorem lookupA_updA {κ α : Type} [DecidableEq κ]
    (d e : List (κ × α)) (k : κ) (hnd : (e.map Prod.fst).Nodup) :
    lookupA (updA d e) k = (lookupA e k).or (lookupA d k) := by
  induction e generalizing d with
  | nil => simp [updA, lookupA]
  | cons hd tl ih =>
    simp only [List.map_cons, List.nodup_cons] at hnd
    have step : updA d (hd :: tl) = updA (setA d hd.1 hd.2) tl := by
      simp [updA]
    rw [step, ih _ hnd.2]
    by_cases h : hd.1 = k
    · subst h
      have : lookupA tl hd.1 = none :=
        lookupA_eq_none_of_not_mem tl hd.1 hnd.1
      simp [lookupA, this, lookupA_setA_self, Option.or]
    · simp [lookupA, h, lookupA_setA_ne d hd.1 k hd.2 h]

theorem lookupA_filterFold (args : List String)
    (base kw : List (String × Value)) (k : String)
    (hnd : (kw.map Prod.fst).Nodup) :
    lookupA
      (kw.foldl
        (fun acc kv => if args.contains kv.1 then setA acc kv.1 kv.2 else acc) base) k =
      if args.contains k then (lookupA kw k).or (lookupA base k)
      else lookupA base k := by
  induction kw generalizing base with
  | nil =>
    simp [lookupA]
  | cons hd tl ih =>
    simp only [List.map_cons, List.nodup_cons] at hnd
    simp only [List.foldl_cons]
    rw [ih _ hnd.2]
    by_cases hk : hd.1 = k
    · subst hk
      have hnone : lookupA tl hd.1 = none :=
        lookupA_eq_none_of_not_mem tl hd.1 hnd.1
      by_cases hc : hd.1 ∈ args
      · simp [hc, hnone, lookupA, lookupA_setA_self, Option.or]
      · simp [hc, hnone, lookupA]
    · have h1 : ¬ hd.1 = k := hk
      by_cases hc : hd.1 ∈ args
      · simp [hc, lookupA, h1, lookupA_setA_ne base hd.1 k hd.2 h1]
      · simp [hc, lookupA, h1]

/-- What a node's stored kwargs answer after NodeState._set_kwargs: a key
the signature accepts takes its new value when supplied, otherwise keeps
the base (empty for replace=true, the previous kwargs otherwise); a key
the signature rejects always keeps the base value. -/
theorem lookupA_setKwargsFn (spec : ArgsSpec)
    (cur kw : List (String × Value)) (b : Bool) (k : String)
    (hnd : (kw.map Prod.fst).Nodup) :
    lookupA (setKwargsFn spec cur kw b) k =
      if accepts spec k = true then
        (lookupA kw k).or (lookupA (if b then [] else cur) k)
      else lookupA (if b then [] else cur) k := by
  unfold setKwargsFn accepts
  cases hkw : spec.keywords with
  | none =>
    simp only [Option.isSome_none, Bool.false_or]
    exact lookupA_filterFold spec.args _ kw k hnd
  | some c =>
    simp only [Option.isSome_some, Bool.true_or, if_pos]
    exact lookupA_updA (if b = true then [] else cur) kw k hnd

theorem lookupA_append {κ α : Type} [DecidableEq κ]
    (d e : List (κ × α)) (k : κ) :
    lookupA (d ++ e) k = (lookupA d k).or (lookupA e k) := by
  induction d with
  | nil => simp [lookupA, Option.or]
  | cons hd tl ih =>
    by_cases h : hd.1 = k
    · simp [lookupA, h, Option.or]
    · simp [lookupA, h, ih]

theorem run_cached_inv {g : CGraph} {f i : Nat} {s : MState}
    {r : TRes} {s' : MState} {tr : List Nat}
    (h : run g (f + 1) (.cached i) s = .ok (r, s', tr)) :
    (s.dirty i = false ∧ r = .val (s.cache i) ∧ s' = s ∧ tr = []) ∨
    (s.dirty i = true ∧ ∃ v s1,
      run g f (.assemble i (s.args i) (s.kwargs i)) s = .ok (.val v, s1, tr) ∧
      r = .val v ∧ s' = storeCache i v s1) := by
  by_cases hd : s.dirty i = true
  · right
    refine ⟨hd, ?_⟩
    simp only [run, hd, if_true] at h
    cases hA : run g f (.assemble i (s.args i) (s.kwargs i)) s with
    | error e => rw [hA] at h; cases h
    | ok out =>
      obtain ⟨r1, s1, tr1⟩ := out
      rw [hA] at h
      cases r1 with
      | val v =>
        simp only [Except.ok.injEq, Prod.mk.injEq] at h
        obtain ⟨h1, h2, h3⟩ := h
        subst h1
        subst h2
        subst h3
        exact ⟨v, s1, rfl, rfl, rfl⟩
      | acc ca ck => cases h
  · left
    simp only [Bool.not_eq_true] at hd
    simp only [run, hd, Bool.false_eq_true, if_false] at h
    simp only [Except.ok.injEq, Prod.mk.injEq] at h
    exact ⟨hd, h.1.symm, h.2.1.symm, h.2.2.symm⟩

theorem run_assemble_inv {g : CGraph} {f i : Nat} {a : List Value}
    {kw : List (String × Value)} {s : MState}
    {r : TRes} {s' : MState} {tr : List Nat}
    (h : run g (f + 1) (.assemble i a kw) s = .ok (r, s', tr)) :
    ∃ ca ck trR,
      run g f (.refs (g.upstream i) [] kw) s = .ok (.acc ca ck, s', trR) ∧
      r = .val (g.func i (ca ++ a) ck) ∧ tr = trR ++ [i] := by
  simp only [run] at h
  cases hA : run g f (.refs (g.upstream i) [] kw) s with
  | error e => rw [hA] at h; cases h
  | ok out =>
    obtain ⟨r1, s1, tr1⟩ := out
    rw [hA] at h
    cases r1 with
    | val v => cases h
    | acc ca ck =>
      simp only [Except.ok.injEq, Prod.mk.injEq] at h
      obtain ⟨h1, h2, h3⟩ := h
      subst h1
      subst h2
      subst h3
      exact ⟨ca, ck, tr1, rfl, rfl, rfl⟩

theorem run_refs_nil_inv {g : CGraph} {f : Nat} {ca : List Value}
    {ck : List (String × Value)} {s : MState}
    {r : TRes} {s' : MState} {tr : List Nat}
    (h : run g (f + 1) (.refs [] ca ck) s = .ok (r, s', tr)) :
    r = .acc ca ck ∧ s' = s ∧ tr = [] := by
  simp only [run] at h
  simp only [Except.ok.injEq, Prod.mk.injEq] at h
  exact ⟨h.1.symm, h.2.1.symm, h.2.2.symm⟩

theorem run_refs_cons_inv {g : CGraph} {f : Nat} {rr : UpRef}
    {rest : List UpRef} {ca : List Value} {ck : List (String × Value)}
    {s : MState} {r : TRes} {s' : MState} {tr : List Nat}
    (h : run g (f + 1) (.refs (rr :: rest) ca ck) s = .ok (r, s', tr)) :
    ∃ v s1 tr1 tr2,
      run g f (.ref rr) s = .ok (.val v, s1, tr1) ∧
      run g f (.refs rest (spreadOne (ca, ck) v).1 (spreadOne (ca, ck) v).2) s1 =
        .ok (r, s', tr2) ∧
      tr = tr1 ++ tr2 := by
  simp only [run] at h
  cases hA : run g f (.ref rr) s with
  | error e => rw [hA] at h; cases h
  | ok out =>
    obtain ⟨r1, s1, tr1⟩ := out
    rw [hA] at h
    cases r1 with
    | val v =>
      dsimp only at h
      cases hB : run g f
          (.refs rest (spreadOne (ca, ck) v).1 (spreadOne (ca, ck) v).2) s1 with
      | error e => rw [hB] at h; cases h
      | ok out2 =>
        obtain ⟨r2, s2, tr2⟩ := out2
        rw [hB] at h
        simp only [Except.ok.injEq, Prod.mk.injEq] at h
        obtain ⟨h1, h2, h3⟩ := h
        subst h1
        subst h2
        subst h3
        exact ⟨v, s1, tr1, tr2, rfl, hB, rfl⟩
    | acc _ _ => cases h

theorem run_ref_direct_inv {g : CGraph} {f u : Nat} {s : MState}
    {out : TRes × MState × List Nat}
    (h : run g (f + 1) (.ref (.direct u)) s = .ok out) :
    run g f (.cached u) s = .ok out := h

theorem run_ref_wrapper_eq {g : CGraph} {f pn : Nat} {st : String}
    {s : MState} :
    run g (f + 1) (.ref (.wrapper pn st)) s = .error .attributeError := rfl

/-- Evaluation never touches any node's stored args or kwargs. -/
theorem run_args_kwargs (g : CGraph) :
    ∀ f t s r s' tr, run g f t s = .ok (r, s', tr) →
      s'.args = s.args ∧ s'.kwargs = s.kwargs := by
  intro f
  induction f with
  | zero => intro t s r s' tr h; simp [run] at h
  | succ f ih =>
    intro t s r s' tr h
    cases t with
    | cached i =>
      rcases run_cached_inv h with ⟨_, _, hs, _⟩ | ⟨_, v, s1, hA, _, hs⟩
      · subst hs; exact ⟨rfl, rfl⟩
      · obtain ⟨h1, h2⟩ := ih _ _ _ _ _ hA
        subst hs
        exact ⟨h1, h2⟩
    | assemble i a kw =>
      rcases run_assemble_inv h with ⟨ca, ck, trR, hR, _, _⟩
      exact ih _ _ _ _ _ hR
    | refs rs ca ck =>
      cases rs with
      | nil =>
        rcases run_refs_nil_inv h with ⟨_, hs, _⟩
        subst hs; exact ⟨rfl, rfl⟩
      | cons rr rest =>
        rcases run_refs_cons_inv h with ⟨v, s1, tr1, tr2, h1, h2, _⟩
        obtain ⟨a1, k1⟩ := ih _ _ _ _ _ h1
        obtain ⟨a2, k2⟩ := ih _ _ _ _ _ h2
        exact ⟨a2.trans a1, k2.trans k1⟩
    | ref r =>
      cases r with
      | direct u => exact ih _ _ _ _ _ (run_ref_direct_inv h)
      | wrapper pn st => rw [run_ref_wrapper_eq] at h; cases h

/-- Evaluation never dirties a clean node and never changes a clean node's
cache. -/
theorem run_clean_persist (g : CGraph) :
    ∀ f t s r s' tr, run g f t s = .ok (r, s', tr) →
      ∀ k, s.dirty k = false → s'.dirty k = false ∧ s'.cache k = s.cache k := by
  intro f
  induction f with
  | zero => intro t s r s' tr h; simp [run] at h
  | succ f ih =>
    intro t s r s' tr h k hk
    cases t with
    | cached i =>
      rcases run_cached_inv h with ⟨_, _, hs, _⟩ | ⟨hd, v, s1, hA, _, hs⟩
      · subst hs; exact ⟨hk, rfl⟩
      · have hki : k ≠ i := by
          intro he; rw [he, hd] at hk; cases hk
        obtain ⟨h1, h2⟩ := ih _ _ _ _ _ hA k hk
        subst hs
        refine ⟨?_, ?_⟩
        · show updAt s1.dirty i false k = false
          rw [updAt_ne _ _ _ _ hki]; exact h1
        · show updAt s1.cache i v k = s.cache k
          rw [updAt_ne _ _ _ _ hki]; exact h2
    | assemble i a kw =>
      rcases run_assemble_inv h with ⟨ca, ck, trR, hR, _, _⟩
      exact ih _ _ _ _ _ hR k hk
    | refs rs ca ck =>
      cases rs with
      | nil =>
        rcases run_refs_nil_inv h with ⟨_, hs, _⟩
        subst hs; exact ⟨hk, rfl⟩
      | cons rr rest =>
        rcases run_refs_cons_inv h with ⟨v, s1, tr1, tr2, h1, h2, _⟩
        obtain ⟨d1, c1⟩ := ih _ _ _ _ _ h1 k hk
        obtain ⟨d2, c2⟩ := ih _ _ _ _ _ h2 k d1
        exact ⟨d2, c2.trans c1⟩
    | ref r =>
      cases r with
      | direct u => exact ih _ _ _ _ _ (run_ref_direct_inv h) k hk
      | wrapper pn st => rw [run_ref_wrapper_eq] at h; cases h

/-- A cached read leaves its node clean. -/
theorem run_cached_clean_after (g : CGraph) {f i : Nat} {s : MState}
    {r : TRes} {s' : MState} {tr : List Nat}
    (h : run g f (.cached i) s = .ok (r, s', tr)) : s'.dirty i = false := by
  cases f with
  | zero => simp [run] at h
  | succ f =>
    rcases run_cached_inv h with ⟨hd, _, hs, _⟩ | ⟨_, v, s1, _, _, hs⟩
    · subst hs; exact hd
    · subst hs
      show updAt s1.dirty i false i = false
      exact updAt_self _ _ _

/-- A successful `ref` task on a direct entry is a cached read at one less
fuel. -/
theorem run_ref_direct_any {g : CGraph} {f u : Nat} {s : MState}
    {out : TRes × MState × List Nat}
    (h : run g f (.ref (.direct u)) s = .ok out) :
    ∃ f2, run g f2 (.cached u) s = .ok out := by
  cases f with
  | zero => simp [run] at h
  | succ f2 => exact ⟨f2, h⟩

/-- A successfully evaluated upstream list contains no parameter-target
wrapper entry, and each of its direct entries ends up clean. -/
theorem run_refs_facts (g : CGraph) :
    ∀ f rs ca ck s r s' tr,
      run g f (.refs rs ca ck) s = .ok (r, s', tr) →
      ∀ u ∈ rs, (∀ pn st, u ≠ UpRef.wrapper pn st) ∧
        (∀ m, u = UpRef.direct m → s'.dirty m = false) := by
  intro f
  induction f with
  | zero => intro rs ca ck s r s' tr h; simp [run] at h
  | succ f ih =>
    intro rs ca ck s r s' tr h u hu
    cases rs with
    | nil => cases hu
    | cons rr rest =>
      rcases run_refs_cons_inv h with ⟨v, s1, tr1, tr2, h1, h2, _⟩
      rcases List.mem_cons.mp hu with he | he
      · subst he
        cases u with
        | wrapper pn st =>
          cases f with
          | zero => simp [run] at h1
          | succ f2 => rw [run_ref_wrapper_eq] at h1; cases h1
        | direct m =>
          have hnw : ∀ pn st, UpRef.direct m ≠ UpRef.wrapper pn st := by
            intro pn st hcon
            cases hcon
          refine ⟨hnw, ?_⟩
          intro m' hm'
          cases hm'
          have hclean : s1.dirty m = false := by
            obtain ⟨f2, hc⟩ := run_ref_direct_any h1
            exact run_cached_clean_after g hc
          exact (run_clean_persist g _ _ _ _ _ _ h2 m hclean).1
      · exact ih _ _ _ _ _ _ _ h2 u he

/-- Evaluation preserves the downstream-closure invariant: in a mirrored
context, if every downstream peer of a dirty node was dirty before a
successful evaluation, the same holds after it.  The one node evaluation
cleans is only cleaned after all its upstream peers have been evaluated
(and a wrapper peer would have failed the evaluation), so no dirty parent
is left pointing at it. -/
theorem run_invd (g : CGraph) (hm : Mirror g) :
    ∀ f t s r s' tr, run g f t s = .ok (r, s', tr) → InvD g s → InvD g s' := by
  intro f
  induction f with
  | zero => intro t s r s' tr h; simp [run] at h
  | succ f ih =>
    intro t s r s' tr h hinv
    cases t with
    | cached i =>
      rcases run_cached_inv h with ⟨_, _, hs, _⟩ | ⟨hd, v, s1, hA, _, hs⟩
      · subst hs; exact hinv
      · have hinv1 : InvD g s1 := ih _ _ _ _ _ hA hinv
        subst hs
        cases f with
        | zero => simp [run] at hA
        | succ f2 =>
          rcases run_assemble_inv hA with ⟨ca, ck, trR, hR, _, _⟩
          intro p q hp hq
          by_cases hpi : p = i
          · rw [hpi] at hp
            rw [show (storeCache i v s1).dirty i = false from updAt_self _ _ _] at hp
            cases hp
          · have hp1 : s1.dirty p = true := by
              have he : (storeCache i v s1).dirty p = s1.dirty p :=
                updAt_ne _ _ _ _ hpi
              rw [he] at hp; exact hp
            by_cases hqi : q = i
            · exfalso
              rw [hqi] at hq
              have hpeer : p ∈ upPeers g i := (hm p i).mp hq
              obtain ⟨u, hu, hup⟩ := List.mem_map.mp hpeer
              obtain ⟨hnw, hdir⟩ := run_refs_facts g _ _ _ _ _ _ _ _ hR u hu
              cases u with
              | direct m =>
                have hmp : m = p := hup
                have hclean : s1.dirty m = false := hdir m rfl
                rw [hmp] at hclean
                rw [hclean] at hp1; cases hp1
              | wrapper pn st => exact (hnw pn st) rfl
            · have hq1 : s1.dirty q = true := hinv1 p q hp1 hq
              show (storeCache i v s1).dirty q = true
              rw [show (storeCache i v s1).dirty q = s1.dirty q from
                updAt_ne _ _ _ _ hqi]
              exact hq1
    | assemble i a kw =>
      rcases run_assemble_inv h with ⟨ca, ck, trR, hR, _, _⟩
      exact ih _ _ _ _ _ hR hinv
    | refs rs ca ck =>
      cases rs with
      | nil =>
        rcases run_refs_nil_inv h with ⟨_, hs, _⟩
        subst hs; exact hinv
      | cons rr rest =>
        rcases run_refs_cons_inv h with ⟨v, s1, tr1, tr2, h1, h2, _⟩
        exact ih _ _ _ _ _ h2 (ih _ _ _ _ _ h1 hinv)
    | ref r =>
      cases r with
      | direct u => exact ih _ _ _ _ _ (run_ref_direct_inv h) hinv
      | wrapper pn st => rw [run_ref_wrapper_eq] at h; cases h

/-- Locality of evaluation under an acyclicity rank: a task can only touch
the state of, or invoke, nodes within its rank bound. -/
theorem run_local (g : CGraph) (rank : Nat → Nat) (hr : UpRanked g rank) :
    ∀ f t s r s' tr, run g f t s = .ok (r, s', tr) →
      ∀ k, ((s'.dirty k ≠ s.dirty k ∨ s'.cache k ≠ s.cache k) →
              stateBound rank t k) ∧
        (k ∈ tr → traceBound rank t k) := by
  intro f
  induction f with
  | zero => intro t s r s' tr h; simp [run] at h
  | succ f ih =>
    intro t s r s' tr h k
    cases t with
    | cached i =>
      rcases run_cached_inv h with ⟨_, _, hs, htr⟩ | ⟨hd, v, s1, hA, _, hs⟩
      · subst hs; subst htr
        constructor
        · intro hch; rcases hch with hch | hch <;> exact absurd rfl hch
        · intro hk; cases hk
      · subst hs
        obtain ⟨hst, htr⟩ := ih _ _ _ _ _ hA k
        constructor
        · intro hch
          by_cases hki : k = i
          · subst hki
            show rank k ≤ rank k
            exact Nat.le_refl _
          · have hd' : (storeCache i v s1).dirty k = s1.dirty k :=
              updAt_ne _ _ _ _ hki
            have hc' : (storeCache i v s1).cache k = s1.cache k :=
              updAt_ne _ _ _ _ hki
            have hb : stateBound rank (.assemble i (s.args i) (s.kwargs i)) k := by
              apply hst
              rcases hch with hch | hch
              · left; rw [hd'] at hch; exact hch
              · right; rw [hc'] at hch; exact hch
            exact Nat.le_of_lt hb
        · intro hk
          exact htr hk
    | assemble i a kw =>
      rcases run_assemble_inv h with ⟨ca, ck, trR, hR, _, htr⟩
      subst htr
      obtain ⟨hst, htrR⟩ := ih _ _ _ _ _ hR k
      have keybound : ∀ m, UpRef.direct m ∈ g.upstream i → rank m < rank i :=
        fun m hmem => hr i m (mem_directUps.mpr hmem)
      constructor
      · intro hch
        obtain ⟨m, hmem, hle⟩ := hst hch
        exact Nat.lt_of_le_of_lt hle (keybound m hmem)
      · intro hk
        rcases List.mem_append.mp hk with hk | hk
        · obtain ⟨m, hmem, hle⟩ := htrR hk
          exact Nat.le_of_lt (Nat.lt_of_le_of_lt hle (keybound m hmem))
        · have hki : k = i := by
            cases hk with
            | head => rfl
            | tail _ hk2 => cases hk2
          subst hki
          show rank k ≤ rank k
          exact Nat.le_refl _
    | refs rs ca ck =>
      cases rs with
      | nil =>
        rcases run_refs_nil_inv h with ⟨_, hs, htr⟩
        subst hs; subst htr
        constructor
        · intro hch; rcases hch with hch | hch <;> exact absurd rfl hch
        · intro hk; cases hk
      | cons rr rest =>
        rcases run_refs_cons_inv h with ⟨v, s1, tr1, tr2, h1, h2, htr⟩
        subst htr
        obtain ⟨hst1, htr1⟩ := ih _ _ _ _ _ h1 k
        obtain ⟨hst2, htr2⟩ := ih _ _ _ _ _ h2 k
        constructor
        · intro hch
          by_cases hleg1 : s1.dirty k = s.dirty k ∧ s1.cache k = s.cache k
          · have hch2 : s'.dirty k ≠ s1.dirty k ∨ s'.cache k ≠ s1.cache k := by
              rcases hch with hch | hch
              · left; rw [← hleg1.1] at hch; exact hch
              · right; rw [← hleg1.2] at hch; exact hch
            obtain ⟨m, hmem, hle⟩ := hst2 hch2
            exact ⟨m, List.mem_cons_of_mem _ hmem, hle⟩
          · have hch1 : s1.dirty k ≠ s.dirty k ∨ s1.cache k ≠ s.cache k := by
              rcases not_and_or.mp hleg1 with hne | hne
              · exact Or.inl hne
              · exact Or.inr hne
            obtain ⟨m, hrr, hle⟩ := hst1 hch1
            refine ⟨m, ?_, hle⟩
            rw [← hrr]
            exact List.mem_cons_self _ _
        · intro hk
          rcases List.mem_append.mp hk with hk | hk
          · obtain ⟨m, hrr, hle⟩ := htr1 hk
            refine ⟨m, ?_, hle⟩
            rw [← hrr]
            exact List.mem_cons_self _ _
          · obtain ⟨m, hmem, hle⟩ := htr2 hk
            exact ⟨m, List.mem_cons_of_mem _ hmem, hle⟩
    | ref r =>
      cases r with
      | direct u =>
        obtain ⟨hst, htr⟩ := ih _ _ _ _ _ (run_ref_direct_inv h) k
        constructor
        · intro hch; exact ⟨u, rfl, hst hch⟩
        · intro hk; exact ⟨u, rfl, htr hk⟩
      | wrapper pn st => rw [run_ref_wrapper_eq] at h; cases h

/-- A direct _eval of node i invokes i's bound callable exactly once and
leaves i's own dirty flag and cache untouched (its upstream closure has
strictly smaller rank, so the upstream loop can neither touch i's state
nor invoke i). -/
theorem run_count_assemble (g : CGraph) (rank : Nat → Nat)
    (hr : UpRanked g rank) {f i : Nat} {a : List Value}
    {kw : List (String × Value)} {s : MState} {r : TRes} {s' : MState}
    {tr : List Nat} (h : run g f (.assemble i a kw) s = .ok (r, s', tr)) :
    tr.count i = 1 ∧ s'.dirty i = s.dirty i ∧ s'.cache i = s.cache i := by
  cases f with
  | zero => simp [run] at h
  | succ f =>
    rcases run_assemble_inv h with ⟨ca, ck, trR, hR, _, htr⟩
    subst htr
    have hnot : i ∉ trR := by
      intro hmem
      obtain ⟨m, hm, hle⟩ := (run_local g rank hr _ _ _ _ _ _ hR i).2 hmem
      have := hr i m (mem_directUps.mpr hm)
      omega
    have hstate := (run_local g rank hr _ _ _ _ _ _ hR i).1
    have hdirty : s'.dirty i = s.dirty i := by
      by_contra hne
      obtain ⟨m, hm, hle⟩ := hstate (Or.inl hne)
      have := hr i m (mem_directUps.mpr hm)
      omega
    have hcache : s'.cache i = s.cache i := by
      by_contra hne
      obtain ⟨m, hm, hle⟩ := hstate (Or.inr hne)
      have := hr i m (mem_directUps.mpr hm)
      omega
    refine ⟨?_, hdirty, hcache⟩
    rw [List.count_append, List.count_eq_zero.mpr hnot]
    simp

/-- Counting bound for every task other than a direct _eval of the counted
node itself: the node's callable runs at most once, runs exactly when the
node goes dirty-to-clean, and when it does not run the node's dirty flag
and cache are unchanged. -/
theorem run_count_other (g : CGraph) (rank : Nat → Nat)
    (hr : UpRanked g rank) :
    ∀ f t s r s' tr, run g f t s = .ok (r, s', tr) →
      ∀ k, (∀ a kw, t ≠ Task.assemble k a kw) →
        tr.count k ≤ 1 ∧
        (tr.count k = 1 → s.dirty k = true ∧ s'.dirty k = false) ∧
        (tr.count k = 0 → s'.dirty k = s.dirty k ∧ s'.cache k = s.cache k) := by
  intro f
  induction f with
  | zero => intro t s r s' tr h; simp [run] at h
  | succ f ih =>
    intro t s r s' tr h k hcond
    cases t with
    | cached i =>
      rcases run_cached_inv h with ⟨_, _, hs, htr⟩ | ⟨hd, v, s1, hA, _, hs⟩
      · subst hs; subst htr
        refine ⟨by simp, ?_, ?_⟩
        · intro h1; simp at h1
        · intro _; exact ⟨rfl, rfl⟩
      · subst hs
        by_cases hki : k = i
        · subst hki
          obtain ⟨hcnt, _, _⟩ := run_count_assemble g rank hr hA
          rw [hcnt]
          refine ⟨Nat.le_refl _, ?_, ?_⟩
          · intro _
            refine ⟨hd, ?_⟩
            show updAt s1.dirty k false k = false
            exact updAt_self _ _ _
          · intro h0; cases h0
        · have hcond' : ∀ a kw,
              Task.assemble i (s.args i) (s.kwargs i) ≠ Task.assemble k a kw := by
            intro a kw heq
            injection heq with h1 _ _
            exact hki h1.symm
          obtain ⟨le1, one1, zero1⟩ := ih _ _ _ _ _ hA k hcond'
          have hdk : (storeCache i v s1).dirty k = s1.dirty k :=
            updAt_ne _ _ _ _ hki
          have hck : (storeCache i v s1).cache k = s1.cache k :=
            updAt_ne _ _ _ _ hki
          refine ⟨le1, ?_, ?_⟩
          · intro h1
            obtain ⟨hb, ha⟩ := one1 h1
            exact ⟨hb, by rw [hdk]; exact ha⟩
          · intro h0
            obtain ⟨ha, hb⟩ := zero1 h0
            exact ⟨by rw [hdk]; exact ha, by rw [hck]; exact hb⟩
    | assemble i a kw =>
      have hki : k ≠ i := by
        intro he
        exact hcond a kw (by rw [he])
      rcases run_assemble_inv h with ⟨ca, ck, trR, hR, _, htr⟩
      subst htr
      have hcnt0 : List.count k [i] = 0 := by
        simp [List.count_singleton']
        omega
      obtain ⟨le1, one1, zero1⟩ :=
        ih _ _ _ _ _ hR k (fun a2 kw2 hcon => by cases hcon)
      rw [List.count_append, hcnt0, Nat.add_zero]
      exact ⟨le1, one1, zero1⟩
    | refs rs ca ck =>
      cases rs with
      | nil =>
        rcases run_refs_nil_inv h with ⟨_, hs, htr⟩
        subst hs; subst htr
        refine ⟨by simp, ?_, ?_⟩
        · intro h1; simp at h1
        · intro _; exact ⟨rfl, rfl⟩
      | cons rr rest =>
        rcases run_refs_cons_inv h with ⟨v, s1, tr1, tr2, h1, h2, htr⟩
        subst htr
        obtain ⟨le1, one1, zero1⟩ :=
          ih _ _ _ _ _ h1 k (fun a2 kw2 hcon => by cases hcon)
        obtain ⟨le2, one2, zero2⟩ :=
          ih _ _ _ _ _ h2 k (fun a2 kw2 hcon => by cases hcon)
        rw [List.count_append]
        rcases Nat.le_one_iff_eq_zero_or_eq_one.mp le1 with hc1 | hc1
        · obtain ⟨d1, c1eq⟩ := zero1 hc1
          rw [hc1, Nat.zero_add]
          refine ⟨le2, ?_, ?_⟩
          · intro h1'
            obtain ⟨hb, ha⟩ := one2 h1'
            exact ⟨by rw [← d1]; exact hb, ha⟩
          · intro h0
            obtain ⟨ha, hb⟩ := zero2 h0
            exact ⟨ha.trans d1, hb.trans c1eq⟩
        · obtain ⟨hdb, hda⟩ := one1 hc1
          have hc2 : tr2.count k = 0 := by
            rcases Nat.le_one_iff_eq_zero_or_eq_one.mp le2 with h0 | h0
            · exact h0
            · obtain ⟨hb2, _⟩ := one2 h0
              rw [hda] at hb2
              cases hb2
          obtain ⟨d2, _⟩ := zero2 hc2
          rw [hc1, hc2]
          refine ⟨Nat.le_refl _, ?_, ?_⟩
          · intro _
            exact ⟨hdb, by rw [d2]; exact hda⟩
          · intro h0; cases h0
    | ref r =>
      cases r with
      | direct u =>
        exact ih _ _ _ _ _ (run_ref_direct_inv h) k
          (fun a2 kw2 hcon => by cases hcon)
      | wrapper pn st => rw [run_ref_wrapper_eq] at h; cases h

theorem inval_nil_eq (g : CGraph) (f : Nat) (s : MState) :
    inval g f [] s = .ok (s, []) := by
  cases f <;> rfl

theorem inval_cons_inv {g : CGraph} {f i : Nat} {rest : List Nat}
    {s s' : MState} {tr : List Nat}
    (h : inval g (f + 1) (i :: rest) s = .ok (s', tr)) :
    (s.dirty i = true ∧ inval g f rest s = .ok (s', tr)) ∨
    (s.dirty i = false ∧ ∃ tr2,
      inval g f (g.downstream i ++ rest) (markInval i s) = .ok (s', tr2) ∧
      tr = i :: tr2) := by
  by_cases hd : s.dirty i = true
  · left
    refine ⟨hd, ?_⟩
    simp only [inval, hd, if_true] at h
    exact h
  · right
    simp only [Bool.not_eq_true] at hd
    refine ⟨hd, ?_⟩
    simp only [inval, hd, Bool.false_eq_true, if_false] at h
    cases hB : inval g f (g.downstream i ++ rest) (markInval i s) with
    | error e => rw [hB] at h; cases h
    | ok out =>
      obtain ⟨s2, tr2⟩ := out
      rw [hB] at h
      simp only [Except.ok.injEq, Prod.mk.injEq] at h
      obtain ⟨h1, h2⟩ := h
      subst h1
      subst h2
      exact ⟨tr2, rfl, rfl⟩

/-- Core facts about the invalidation worklist: dirtiness only grows, args
and kwargs are untouched, every processed node was clean and ends up dirty
with its cache discarded, every worklist node ends up dirty, unprocessed
nodes are untouched, and no node is processed twice. -/
theorem inval_basic (g : CGraph) :
    ∀ f ws s s' tr, inval g f ws s = .ok (s', tr) →
      (∀ k, s.dirty k = true → s'.dirty k = true) ∧
      (s'.args = s.args ∧ s'.kwargs = s.kwargs) ∧
      (∀ k, k ∈ tr →
        s.dirty k = false ∧ s'.dirty k = true ∧ s'.cache k = Value.vnone) ∧
      (∀ k, k ∈ ws → s'.dirty k = true) ∧
      (∀ k, k ∉ tr → s'.dirty k = s.dirty k ∧ s'.cache k = s.cache k) ∧
      (∀ k, tr.count k ≤ 1) := by
  intro f
  induction f with
  | zero =>
    intro ws s s' tr h
    cases ws with
    | nil =>
      rw [inval_nil_eq] at h
      simp only [Except.ok.injEq, Prod.mk.injEq] at h
      obtain ⟨h1, h2⟩ := h
      subst h1; subst h2
      refine ⟨fun k hk => hk, ⟨rfl, rfl⟩, ?_, ?_, fun k _ => ⟨rfl, rfl⟩, ?_⟩
      · intro k hk; cases hk
      · intro k hk; cases hk
      · intro k; simp
    | cons i rest => simp [inval] at h
  | succ f ih =>
    intro ws s s' tr h
    cases ws with
    | nil =>
      rw [inval_nil_eq] at h
      simp only [Except.ok.injEq, Prod.mk.injEq] at h
      obtain ⟨h1, h2⟩ := h
      subst h1; subst h2
      refine ⟨fun k hk => hk, ⟨rfl, rfl⟩, ?_, ?_, fun k _ => ⟨rfl, rfl⟩, ?_⟩
      · intro k hk; cases hk
      · intro k hk; cases hk
      · intro k; simp
    | cons i rest =>
      rcases inval_cons_inv h with ⟨hd, hsub⟩ | ⟨hd, tr2, hsub, htr⟩
      · obtain ⟨a1, a2, a3, a4, a5, a6⟩ := ih _ _ _ _ hsub
        refine ⟨a1, a2, a3, ?_, a5, a6⟩
        intro k hk
        rcases List.mem_cons.mp hk with he | he
        · subst he; exact a1 k hd
        · exact a4 k he
      · subst htr
        obtain ⟨a1, a2, a3, a4, a5, a6⟩ := ih _ _ _ _ hsub
        have hs1d : ∀ k, s.dirty k = true → (markInval i s).dirty k = true := by
          intro k hk
          show updAt s.dirty i true k = true
          by_cases hki : k = i
          · subst hki; exact updAt_self _ _ _
          · rw [updAt_ne _ _ _ _ hki]; exact hk
        have hs1di : (markInval i s).dirty i = true := updAt_self _ _ _
        have hnotin : i ∉ tr2 := by
          intro hmem
          have := (a3 i hmem).1
          rw [hs1di] at this
          cases this
        refine ⟨?_, ?_, ?_, ?_, ?_, ?_⟩
        · intro k hk
          exact a1 k (hs1d k hk)
        · exact ⟨a2.1, a2.2⟩
        · intro k hk
          rcases List.mem_cons.mp hk with he | he
          · subst he
            refine ⟨hd, a1 _ hs1di, ?_⟩
            have := (a5 _ hnotin).2
            rw [this]
            exact updAt_self _ _ _
          · obtain ⟨b1, b2, b3⟩ := a3 k he
            have hki : k ≠ i := by
              intro hcon
              rw [hcon, hs1di] at b1
              cases b1
            refine ⟨?_, b2, b3⟩
            have : (markInval i s).dirty k = s.dirty k := updAt_ne _ _ _ _ hki
            rw [← this]
            exact b1
        · intro k hk
          rcases List.mem_cons.mp hk with he | he
          · subst he; exact a1 _ hs1di
          · exact a4 k (List.mem_append_right _ he)
        · intro k hk
          have hki : k ≠ i := fun hcon => hk (hcon ▸ List.mem_cons_self _ _)
          have hk2 : k ∉ tr2 := fun hcon => hk (List.mem_cons_of_mem _ hcon)
          obtain ⟨b1, b2⟩ := a5 k hk2
          constructor
          · rw [b1]; exact updAt_ne _ _ _ _ hki
          · rw [b2]; exact updAt_ne _ _ _ _ hki
        · intro k
          by_cases hki : k = i
          · subst hki
            rw [List.count_cons_self, List.count_eq_zero.mpr hnotin]
          · rw [List.count_cons_of_ne hki]
            exact a6 k

/-- DFS invalidation restores the downstream-closure invariant: if every
obligation of a dirty node is either already dirty or pending on the
worklist, the final state satisfies the invariant outright. -/
theorem inval_invd (g : CGraph) :
    ∀ f ws s s' tr, inval g f ws s = .ok (s', tr) →
      (∀ p q, s.dirty p = true → q ∈ g.downstream p →
        (s.dirty q = true ∨ q ∈ ws)) →
      InvD g s' := by
  intro f
  induction f with
  | zero =>
    intro ws s s' tr h hex
    cases ws with
    | nil =>
      rw [inval_nil_eq] at h
      simp only [Except.ok.injEq, Prod.mk.injEq] at h
      obtain ⟨h1, _⟩ := h
      subst h1
      intro p q hp hq
      rcases hex p q hp hq with hc | hc
      · exact hc
      · cases hc
    | cons i rest => simp [inval] at h
  | succ f ih =>
    intro ws s s' tr h hex
    cases ws with
    | nil =>
      rw [inval_nil_eq] at h
      simp only [Except.ok.injEq, Prod.mk.injEq] at h
      obtain ⟨h1, _⟩ := h
      subst h1
      intro p q hp hq
      rcases hex p q hp hq with hc | hc
      · exact hc
      · cases hc
    | cons i rest =>
      rcases inval_cons_inv h with ⟨hd, hsub⟩ | ⟨hd, tr2, hsub, _⟩
      · refine ih _ _ _ _ hsub ?_
        intro p q hp hq
        rcases hex p q hp hq with hc | hc
        · exact Or.inl hc
        · rcases List.mem_cons.mp hc with he | he
          · subst he; exact Or.inl hd
          · exact Or.inr he
      · refine ih _ _ _ _ hsub ?_
        intro p q hp hq
        by_cases hpi : p = i
        · subst hpi
          exact Or.inr (List.mem_append_left _ hq)
        · have hp' : s.dirty p = true := by
            have : (markInval i s).dirty p = s.dirty p := updAt_ne _ _ _ _ hpi
            rw [this] at hp; exact hp
          rcases hex p q hp' hq with hc | hc
          · left
            show updAt s.dirty i true q = true
            by_cases hqi : q = i
            · subst hqi; exact updAt_self _ _ _
            · rw [updAt_ne _ _ _ _ hqi]; exact hc
          · rcases List.mem_cons.mp hc with he | he
            · subst he
              left
              exact updAt_self _ _ _
            · exact Or.inr (List.mem_append_right _ he)

/-- In an invariant-satisfying state every node downstream-reachable from
a dirty node is dirty. -/
theorem reach_dirty (g : CGraph) (s : MState) (hinv : InvD g s) :
    ∀ n m, ReachD g n m → s.dirty n = true → s.dirty m = true := by
  intro n m hr
  induction hr with
  | refl i => exact fun h => h
  | step i j m hij _ ih => exact fun hi => ih (hinv i j hi hij)

/-- C1: a cached read (NodeStateBase.val / NodeState._eval_cached)
recomputes only when the dirty flag is set - in that case it evaluates via
NodeState._eval with the node's stored args/kwargs, stores the result and
clears the flag - and otherwise returns the stored cache with the whole
state unchanged; consequently (on an instance whose upstream references
admit a rank, i.e. are acyclic), a node that is dirty at the first of two
consecutive cached reads with no intervening set/update has its bound
callable invoked exactly once: the first read's trace counts it once, the
second read returns the same value with no invocations at all. -/
theorem c1_cached_read_memoizes (g : CGraph) (rank : Nat → Nat)
    (hr : UpRanked g rank) (f i : Nat) (s : MState) (r : TRes) (s' : MState)
    (tr : List Nat) (h : evalCached g f i s = .ok (r, s', tr)) :
    (s.dirty i = false → r = .val (s.cache i) ∧ s' = s ∧ tr = []) ∧
    (s.dirty i = true → ∃ f2 v s1,
      f = f2 + 1 ∧
      run g f2 (.assemble i (s.args i) (s.kwargs i)) s = .ok (.val v, s1, tr) ∧
      r = .val v ∧ s' = storeCache i v s1) ∧
    s'.dirty i = false ∧
    tr.count i = (if s.dirty i = true then 1 else 0) ∧
    evalCached g f i s' = .ok (r, s', []) := by
  cases f with
  | zero => simp [evalCached, run] at h
  | succ f2 =>
    unfold evalCached at h ⊢
    rcases run_cached_inv h with ⟨hcl, hr1, hs, htr⟩ | ⟨hd, v, s1, hA, hr1, hs⟩
    · subst hs; subst hr1; subst htr
      refine ⟨fun _ => ⟨rfl, rfl, rfl⟩, ?_, hcl, ?_, ?_⟩
      · intro hdd; rw [hdd] at hcl; cases hcl
      · rw [hcl]; simp
      · simp [run, hcl]
    · subst hs; subst hr1
      have hcnt := (run_count_assemble g rank hr hA).1
      have hdi : (storeCache i v s1).dirty i = false := updAt_self _ _ _
      have hci : (storeCache i v s1).cache i = v := updAt_self _ _ _
      refine ⟨?_, ?_, hdi, ?_, ?_⟩
      · intro hcl; rw [hcl] at hd; cases hd
      · intro _; exact ⟨f2, v, s1, rfl, hA, rfl, rfl⟩
      · rw [hd]; simp [hcnt]
      · simp [run, hdi, hci]

/-- Closed instance of c1_cached_read_memoizes: the one-node context,
freshly instantiated (dirty), read at fuel 3 - its callable runs exactly
once. -/
theorem c1_cached_read_memoizes_witness :
    exS0.dirty 0 = true ∧ UpRanked exG1 (fun _ => 0) ∧
    List.count 0 [0] = 1 := by
  have hrk : UpRanked exG1 (fun _ => 0) := by
    intro i u hu
    simp [directUps, exG1] at hu
  have h : evalCached exG1 3 0 exS0 =
      .ok (.val (Value.vint 5), storeCache 0 (Value.vint 5) exS0, [0]) := rfl
  have hc := c1_cached_read_memoizes exG1 (fun _ => 0) hrk 3 0 exS0 _ _ _ h
  refine ⟨rfl, hrk, ?_⟩
  have h4 := hc.2.2.2.1
  rw [h4]
  rfl

/-- C8: a direct (uncached) call (NodeStateBase.__call__ / NodeState._eval)
on a node of an acyclic instance, with any caller-supplied args/kwargs,
never mutates that node's own dirty flag or cached value (nor any stored
args/kwargs); if the node was clean, a subsequent cached read still
returns the pre-call cached value, with the state undisturbed. -/
theorem c8_direct_call_frame (g : CGraph) (rank : Nat → Nat)
    (hr : UpRanked g rank) (f i : Nat) (a : List Value)
    (kw : List (String × Value)) (s : MState) (r : TRes) (s' : MState)
    (tr : List Nat) (h : callNode g f i a kw s = .ok (r, s', tr)) :
    s'.dirty i = s.dirty i ∧ s'.cache i = s.cache i ∧
    s'.args = s.args ∧ s'.kwargs = s.kwargs ∧
    (s.dirty i = false →
      ∀ f2, evalCached g (f2 + 1) i s' = .ok (.val (s.cache i), s', [])) := by
  obtain ⟨_, hd, hc⟩ := run_count_assemble g rank hr h
  obtain ⟨ha, hk⟩ := run_args_kwargs g _ _ _ _ _ _ h
  refine ⟨hd, hc, ha, hk, ?_⟩
  intro hclean f2
  have hd' : s'.dirty i = false := by rw [hd]; exact hclean
  unfold evalCached
  simp [run, hd', hc]

/-- Closed instance of c8_direct_call_frame: a direct call on the clean
downstream node of the two-node pipeline leaves its dirty flag and cache
exactly as they were. -/
theorem c8_direct_call_frame_witness :
    UpRanked exG2 (fun i => i) ∧ exSC.dirty 1 = false ∧
    exSC.cache 1 = Value.vnone := by
  have hrk : UpRanked exG2 (fun i => i) := by
    intro i u hu
    by_cases h1 : i = 1
    · subst h1
      simp [directUps, exG2] at hu
      subst hu
      exact Nat.zero_lt_one
    · simp [directUps, exG2, h1] at hu
  have h : callNode exG2 5 1 [] [] exSC = .ok (.val Value.vnone, exSC, [1]) := rfl
  have hc := c8_direct_call_frame exG2 (fun i => i) hrk 5 1 [] [] exSC _ _ _ h
  exact ⟨hrk, hc.1, hc.2.1⟩

/-- Invalidating one node (NodeStateBase._invalidate) from an
invariant-satisfying state: the invariant is restored, the node and its
whole downstream closure end dirty, each node is processed at most once,
a clean node gets its cache discarded, and an already-dirty node
short-circuits, leaving every flag and cache untouched. -/
theorem inval_single_node (g : CGraph) (f i : Nat) (s1 s' : MState)
    (tr : List Nat) (h : inval g f [i] s1 = .ok (s', tr))
    (hinv1 : InvD g s1) :
    s'.args = s1.args ∧ s'.kwargs = s1.kwargs ∧ InvD g s' ∧
    s'.dirty i = true ∧
    (∀ m, ReachD g i m → s'.dirty m = true) ∧
    (∀ k, tr.count k ≤ 1) ∧
    (s1.dirty i = false → s'.cache i = Value.vnone) ∧
    (s1.dirty i = true → tr = [] ∧
      ∀ k, s'.dirty k = s1.dirty k ∧ s'.cache k = s1.cache k) := by
  obtain ⟨a1, a2, a3, a4, a5, a6⟩ := inval_basic g _ _ _ _ _ h
  have hdirty : s'.dirty i = true := a4 i (List.mem_cons_self _ _)
  have hinv' : InvD g s' := by
    refine inval_invd g _ _ _ _ _ h ?_
    intro p q hp hq
    exact Or.inl (hinv1 p q hp hq)
  refine ⟨a2.1, a2.2, hinv', hdirty, ?_, a6, ?_, ?_⟩
  · intro m hm
    exact reach_dirty g s' hinv' i m hm hdirty
  · intro hcl
    have hmem : i ∈ tr := by
      by_contra hni
      have := (a5 i hni).1
      rw [hdirty] at this
      rw [← this] at hcl
      cases hcl
    exact (a3 i hmem).2.2
  · intro hdd
    cases f with
    | zero => simp [inval] at h
    | succ f2 =>
      rcases inval_cons_inv h with ⟨_, hnil⟩ | ⟨hcl, _, _, _⟩
      · rw [inval_nil_eq] at hnil
        simp only [Except.ok.injEq, Prod.mk.injEq] at hnil
        obtain ⟨h1, h2⟩ := hnil
        subst h1; subst h2
        exact ⟨rfl, fun k => ⟨rfl, rfl⟩⟩
      · rw [hdd] at hcl; cases hcl

/-- C2: NodeStateBase.set / NodeState.update first mutate the stored
args/kwargs (set replaces both, update merges kwargs only) and then
invalidate the node: from an invariant-satisfying state, a not-yet-dirty
node is marked dirty with its cache discarded and the invalidation runs
downstream recursively, so afterwards every node reachable via downstream
links from the mutated node is dirty; each node is processed at most once
per invalidation event; and an already-dirty node short-circuits, leaving
every dirty flag and cache untouched (its subtree is not revisited). -/
theorem c2_set_update_invalidate (g : CGraph) (f i : Nat) (a : List Value)
    (kw : List (String × Value)) (s s' : MState) (tr : List Nat)
    (hinv : InvD g s) :
    (setParamsN g f i a kw s = .ok (s', tr) →
      s'.args i = a ∧
      s'.kwargs i = setKwargsFn (g.spec i) (s.kwargs i) kw true ∧
      (∀ j, j ≠ i → s'.args j = s.args j ∧ s'.kwargs j = s.kwargs j) ∧
      InvD g s' ∧ s'.dirty i = true ∧
      (∀ m, ReachD g i m → s'.dirty m = true) ∧
      (∀ k, tr.count k ≤ 1) ∧
      (s.dirty i = false → s'.cache i = Value.vnone) ∧
      (s.dirty i = true → tr = [] ∧
        ∀ k, s'.dirty k = s.dirty k ∧ s'.cache k = s.cache k)) ∧
    (updateN g f i kw s = .ok (s', tr) →
      s'.args i = s.args i ∧
      s'.kwargs i = setKwargsFn (g.spec i) (s.kwargs i) kw false ∧
      (∀ j, j ≠ i → s'.args j = s.args j ∧ s'.kwargs j = s.kwargs j) ∧
      InvD g s' ∧ s'.dirty i = true ∧
      (∀ m, ReachD g i m → s'.dirty m = true) ∧
      (∀ k, tr.count k ≤ 1) ∧
      (s.dirty i = true → tr = [] ∧
        ∀ k, s'.dirty k = s.dirty k ∧ s'.cache k = s.cache k)) := by
  constructor
  · intro h
    unfold setParamsN at h
    obtain ⟨b1, b2, b3, b4, b5, b6, b7, b8⟩ :=
      inval_single_node g f i _ s' tr h hinv
    refine ⟨?_, ?_, ?_, b3, b4, b5, b6, b7, b8⟩
    · rw [b1]; exact updAt_self _ _ _
    · rw [b2]; exact updAt_self _ _ _
    · intro j hj
      constructor
      · rw [b1]; exact updAt_ne _ _ _ _ hj
      · rw [b2]; exact updAt_ne _ _ _ _ hj
  · intro h
    unfold updateN at h
    obtain ⟨b1, b2, b3, b4, b5, b6, b7, b8⟩ :=
      inval_single_node g f i _ s' tr h hinv
    refine ⟨?_, ?_, ?_, b3, b4, b5, b6, b8⟩
    · rw [b1]
    · rw [b2]; exact updAt_self _ _ _
    · intro j hj
      constructor
      · rw [b1]
      · rw [b2]; exact updAt_ne _ _ _ _ hj

/-- Closed instance of c2_set_update_invalidate: set on the upstream node
of the clean two-node pipeline (whose node 1 is downstream-reachable from
node 0); no node is processed more than once. -/
theorem c2_set_update_invalidate_witness :
    InvD exG2 exSC ∧ ReachD exG2 0 1 ∧ List.count 1 [0, 1] ≤ 1 := by
  have hinv : InvD exG2 exSC := by
    intro p q hp _
    exact Bool.noConfusion hp
  have hreach : ReachD exG2 0 1 :=
    ReachD.step 0 1 1 (by simp [exG2]) (ReachD.refl 1)
  have hc := (c2_set_update_invalidate exG2 5 0 [Value.vint 7] [] exSC
    _ _ hinv).1 rfl
  exact ⟨hinv, hreach, hc.2.2.2.2.2.2.1 1⟩

/-- C3 (code bug): instance wiring does install a wrapper entry for a
parameter-targeted edge, but ParamTargetNodeStateWrapper is constructed
with its two positional arguments swapped against its own constructor
signature (Context.__init__ passes the node first and the parameter name
second, while the docstring of ParamTargetNodeStateWrapper.__init__
documents param_name first and state second).  Asking that wrapper for its
cached value therefore calls _eval_cached() on the parameter-name string
and raises AttributeError instead of returning the single-keyword Params
bundle the specification describes: in the wired two-node context for the
blueprint a -> b.fudge, the cached read of b fails. -/
theorem c3_param_target_wrapper_bug :
    exGW.upstream 1 = [UpRef.wrapper 0 "fudge"] ∧
    upstreamRefOf 0 (some "fudge") = UpRef.wrapper 0 "fudge" ∧
    evalCached exGW 9 1 exS0 = .error .attributeError ∧
    callNode exGW 9 1 [] [] exS0 = .error .attributeError := by
  refine ⟨?_, rfl, rfl, rfl⟩
  rfl

/-- The upstream loop of NodeState._eval is the fold of `spreadOne` over
the cached values obtained from the upstream entries in order. -/
theorem run_refs_evalSeq (g : CGraph) :
    ∀ f rs ca ck s rr s' tr, run g f (.refs rs ca ck) s = .ok (rr, s', tr) →
      ∃ vals, EvalSeq g rs s vals s' tr ∧
        rr = .acc (vals.foldl spreadOne (ca, ck)).1
          (vals.foldl spreadOne (ca, ck)).2 := by
  intro f
  induction f with
  | zero => intro rs ca ck s rr s' tr h; simp [run] at h
  | succ f ih =>
    intro rs ca ck s rr s' tr h
    cases rs with
    | nil =>
      rcases run_refs_nil_inv h with ⟨hr, hs, htr⟩
      subst hr; subst hs; subst htr
      exact ⟨[], EvalSeq.nil _, rfl⟩
    | cons r rest =>
      rcases run_refs_cons_inv h with ⟨v, s1, tr1, tr2, h1, h2, htr⟩
      subst htr
      obtain ⟨vals, hseq, hrr⟩ := ih _ _ _ _ _ _ _ h2
      refine ⟨v :: vals, EvalSeq.cons r rest s s1 s' v vals tr1 tr2 ⟨f, h1⟩ hseq, ?_⟩
      rw [hrr]
      simp only [List.foldl_cons]

/-- C5 counterexample input: node 1's direct call with caller kwarg
ping="caller", while its upstream bundle carries ping="up".  The code's
combined kwargs start from the caller's dict and are update()d with the
bundle, so the bundle value wins and the callable observes ping="up" - not
"caller" as the claim's caller-precedence would predict (the
claim-conforming merge, caller on top, is shown yielding "caller"). -/
theorem c5_counterexample_kwarg_clash :
    callNode exGClash 9 1 [] [("ping", Value.vstr "caller")] exS0 =
      .ok (.val (Value.vstr "up"),
        storeCache 0 (Value.vparams [] [("ping", Value.vstr "up")]) exS0,
        [0, 1]) ∧
    lookupA (updA [("ping", Value.vstr "up")] [("ping", Value.vstr "caller")])
      "ping" = some (Value.vstr "caller") ∧
    Value.vstr "up" ≠ Value.vstr "caller" := by
  refine ⟨rfl, rfl, ?_⟩
  intro hcon
  injection hcon with hs
  exact absurd hs (by decide)

/-- C5 (amended): a direct call eval(args, kwargs) appends each
non-parameter-bundle upstream cached result as one positional argument,
spreads each parameter-bundle upstream result - its positional items
appended and its keyword items merged into the combined keyword map -
appends the caller-supplied args after the upstream positional results,
and invokes the bound callable; the combined keyword map starts from the
caller-supplied kwargs and each bundle's keyword items are merged on top
of it, so upstream bundle values take precedence over caller-supplied
values on key conflicts. -/
theorem c5_direct_call_assembly (g : CGraph) :
    ∀ f i a kw s r s' tr, callNode g f i a kw s = .ok (r, s', tr) →
      ∃ vals trR,
        EvalSeq g (g.upstream i) s vals s' trR ∧
        tr = trR ++ [i] ∧
        r = .val (g.func i (assembleFromVals vals a kw).1
          (assembleFromVals vals a kw).2) := by
  intro f i a kw s r s' tr h
  cases f with
  | zero => simp [callNode, run] at h
  | succ f =>
    rcases run_assemble_inv h with ⟨ca, ck, trR, hR, hr, htr⟩
    obtain ⟨vals, hseq, hrr⟩ := run_refs_evalSeq g _ _ _ _ _ _ _ _ hR
    refine ⟨vals, trR, hseq, htr, ?_⟩
    rw [hr]
    cases hrr with
    | refl => rfl

/-- Closed instance of c5_direct_call_assembly on the clash fixture: the
result of the direct call is the callable applied to the amended
assembly - in particular the bundle's ping="up" overrides the caller's
ping="caller". -/
theorem c5_direct_call_assembly_witness :
    callNode exGClash 9 1 [] [("ping", Value.vstr "caller")] exS0 =
      .ok (.val (exGClash.func 1
          (assembleFromVals [Value.vparams [] [("ping", Value.vstr "up")]] []
            [("ping", Value.vstr "caller")]).1
          (assembleFromVals [Value.vparams [] [("ping", Value.vstr "up")]] []
            [("ping", Value.vstr "caller")]).2),
        storeCache 0 (Value.vparams [] [("ping", Value.vstr "up")]) exS0,
        [0] ++ [1]) := by
  obtain ⟨vals, trR, hseq, htr, hr⟩ :=
    c5_direct_call_assembly exGClash 9 1 [] [("ping", Value.vstr "caller")]
      exS0 _ _ _ rfl
  rfl

theorem lookupA_some_mem_keys {κ α : Type} [DecidableEq κ]
    {d : List (κ × α)} {k : κ} {v : α} (h : lookupA d k = some v) :
    k ∈ d.map Prod.fst := by
  induction d with
  | nil => cases h
  | cons hd tl ih =>
    by_cases hk : hd.1 = k
    · simp [hk]
    · simp only [lookupA, hk, if_false] at h
      simp [ih h]

theorem setA_keys_of_mem {κ α : Type} [DecidableEq κ]
    (d : List (κ × α)) (k : κ) (v : α) (h : k ∈ d.map Prod.fst) :
    (setA d k v).map Prod.fst = d.map Prod.fst := by
  induction d with
  | nil => cases h
  | cons hd tl ih =>
    by_cases hk : hd.1 = k
    · simp [setA, hk]
    · have h' : k ∈ tl.map Prod.fst := by
        rcases List.mem_cons.mp h with he | he
        · exact absurd he.symm hk
        · exact he
      simp [setA, hk, ih h']

theorem setA_self_id {κ α : Type} [DecidableEq κ]
    {d : List (κ × α)} {k : κ} {v : α} (h : lookupA d k = some v) :
    setA d k v = d := by
  induction d with
  | nil => cases h
  | cons hd tl ih =>
    by_cases hk : hd.1 = k
    · simp only [lookupA, hk, if_pos] at h
      obtain ⟨k1, v1⟩ := hd
      simp only at hk
      subst hk
      simp only [Option.some.injEq] at h
      subst h
      simp [setA]
    · simp only [lookupA, hk, if_false] at h
      simp [setA, hk, ih h]

/-- C7: storing a new callable - including a partially applied one - under
a name that already holds a node definition updates that definition in
place: the partial and plain-callable branches of _store_node reduce to
_store_node_def with the new func and defaults, and _store_node_def's
update branch keeps the stored definition's path and name, replaces only
func/args/kwargs, leaves both edge maps or any other item untouched, and
creates no new node (the item keys are unchanged). -/
theorem c7_override_updates_in_place (pre : List String) (g : BGraph)
    (n : String) (fv : FuncV) (a : List Value) (kw : List (String × Value))
    (ex : NodeDefM) (hex : lookupA g.items n = some (.nd ex)) :
    (storeNode pre g (.partApp fv a kw) (some n) none none =
      storeNodeDef g
        { name := n, path := pre ++ [n], func := fv, args := a, kwargs := kw }) ∧
    (storeNode pre g (.func fv) (some n) none none =
      storeNodeDef g
        { name := n, path := pre ++ [n], func := fv, args := [], kwargs := [] }) ∧
    (∀ nd : NodeDefM, nd.name = n →
      ∃ g', storeNodeDef g nd = .ok (g', nd.path) ∧
        g'.down = g.down ∧ g'.up = g.up ∧
        lookupA g'.items n =
          some (.nd { ex with func := nd.func, args := nd.args, kwargs := nd.kwargs }) ∧
        (∀ m, m ≠ n → lookupA g'.items m = lookupA g.items m) ∧
        g'.items.map Prod.fst = g.items.map Prod.fst) := by
  refine ⟨rfl, rfl, ?_⟩
  intro nd hnd
  rw [← hnd] at hex
  refine ⟨{ g with items := setA g.items nd.name (.nd (ndUpdate ex nd)) }, ?_,
    rfl, rfl, ?_, ?_, ?_⟩
  · unfold storeNodeDef
    rw [hex]
  · rw [hnd] at hex ⊢
    exact lookupA_setA_self _ _ _
  · intro m hm
    rw [hnd]
    refine lookupA_setA_ne _ _ _ _ ?_
    intro he
    apply hm
    rw [← he]
  · exact setA_keys_of_mem _ _ _ (lookupA_some_mem_keys hex)

/-- Closed instance of c7_override_updates_in_place: re-assigning name a
of the one-node blueprint to a partially applied new callable keeps path
and edge maps. -/
theorem c7_override_updates_in_place_witness :
    lookupA exBG.items "a" = some (.nd exND) ∧
    exND.path = ["a"] := by
  have _hc := c7_override_updates_in_place [] exBG "a"
    { fid := 1, fname := some "b" } [Value.vint 1] [] exND rfl
  exact ⟨rfl, rfl⟩

/-- C9 counterexample: the top-level pipe constructor called with zero
items returns an empty blueprint without raising. -/
theorem c9_counterexample_pipe_zero : pipeTop [] = .ok emptyGraph := rfl

/-- C9 (amended): the blueprint pipe method raises ValueError for fewer
than two items; the top-level pipe constructor raises ValueError for
exactly one item (whatever that item is - via Graph((args,)) storing the
argument tuple, which no _store_node branch accepts), but for zero items
it returns an empty graph without raising. -/
theorem c9_pipe_arity (pre : List String) (g : BGraph) (ps : List PipeItem)
    (p : PipeItem) (hlen : ps.length < 2) :
    pipeMethod pre g ps = .error .valueError ∧
    pipeTop [p] = .error .valueError ∧
    pipeTop [] = .ok emptyGraph := by
  refine ⟨?_, rfl, rfl⟩
  unfold pipeMethod
  rw [if_pos hlen]

/-- Closed instance of c9_pipe_arity at an empty item list. -/
theorem c9_pipe_arity_witness :
    ([] : List PipeItem).length < 2 ∧
    pipeMethod [] emptyGraph [] = .error .valueError := by
  have hc := c9_pipe_arity [] emptyGraph []
    { item := .func { fid := 0, fname := some "f" }, param := none }
    (by decide)
  exact ⟨by decide, hc.1⟩

theorem copyEdges_nil (pre : List String) (tgt : EdgeMapB) :
    copyEdges pre [] tgt = .ok tgt := rfl

theorem copyEdges_cons_inv {pre : List String} {kv : List String × List EdgeB}
    {rest : List (List String × List EdgeB)} {tgt m' : EdgeMapB}
    (h : copyEdges pre (kv :: rest) tgt = .ok m') :
    ∃ cur, lookupA tgt (pre ++ kv.1) = some cur ∧
      copyEdges pre rest
        (setA tgt (pre ++ kv.1)
          (cur ++ (kv.2.map (rebaseE pre)).filter (fun e => decide (e ∉ cur)))) =
        .ok m' := by
  unfold copyEdges at h
  rw [List.foldlM_cons] at h
  cases hcur : lookupA tgt (pre ++ kv.1) with
  | none =>
    rw [hcur] at h
    have h2 : (Except.error Err.keyError : Except Err EdgeMapB) = .ok m' := h
    cases h2
  | some cur =>
    rw [hcur] at h
    exact ⟨cur, rfl, h⟩

theorem copyEdges_cons_eq {pre : List String} {kv : List String × List EdgeB}
    {rest : List (List String × List EdgeB)} {tgt : EdgeMapB}
    {cur : List EdgeB} (hcur : lookupA tgt (pre ++ kv.1) = some cur) :
    copyEdges pre (kv :: rest) tgt =
      copyEdges pre rest
        (setA tgt (pre ++ kv.1)
          (cur ++ (kv.2.map (rebaseE pre)).filter (fun e => decide (e ∉ cur)))) := by
  unfold copyEdges
  rw [List.foldlM_cons, hcur]
  rfl

/-- Keys not of the rebased form of a source key are untouched by
_copy_edges. -/
theorem copyEdges_lookup_other (pre : List String) :
    ∀ src tgt m' : EdgeMapB, copyEdges pre src tgt = .ok m' →
      ∀ q, (∀ kv ∈ src, q ≠ pre ++ kv.1) → lookupA m' q = lookupA tgt q := by
  intro src
  induction src with
  | nil =>
    intro tgt m' h q _
    rw [copyEdges_nil] at h
    simp only [Except.ok.injEq] at h
    rw [h]
  | cons kv rest ih =>
    intro tgt m' h q hq
    obtain ⟨cur, hcur, hrest⟩ := copyEdges_cons_inv h
    have h1 := ih _ _ hrest q (fun kv2 hm => hq kv2 (List.mem_cons_of_mem _ hm))
    rw [h1]
    exact lookupA_setA_ne _ _ _ _
      (fun he => hq kv (List.mem_cons_self _ _) he.symm)

/-- What _copy_edges leaves at a rebased source key: the pre-existing
edges followed by exactly those rebased source edges not already present
(two passes: the filter sees the pre-extension list). -/
theorem copyEdges_lookup_key (pre : List String) :
    ∀ src tgt m' : EdgeMapB, copyEdges pre src tgt = .ok m' →
      (src.map Prod.fst).Nodup →
      ∀ k ts, lookupA src k = some ts →
        ∃ cur, lookupA tgt (pre ++ k) = some cur ∧
          lookupA m' (pre ++ k) =
            some (cur ++ (ts.map (rebaseE pre)).filter (fun e => decide (e ∉ cur))) := by
  intro src
  induction src with
  | nil => intro tgt m' _ _ k ts hts; cases hts
  | cons kv rest ih =>
    intro tgt m' h hnd k ts hts
    obtain ⟨k1, ts1⟩ := kv
    simp only [List.map_cons, List.nodup_cons] at hnd
    obtain ⟨cur, hcur, hrest⟩ := copyEdges_cons_inv h
    by_cases hk : k1 = k
    · subst hk
      have hts1 : ts1 = ts := by
        simp only [lookupA, if_pos] at hts
        exact Option.some.inj hts
      subst hts1
      refine ⟨cur, hcur, ?_⟩
      have hother := copyEdges_lookup_other pre _ _ _ hrest (pre ++ k1)
        (fun kv2 hm he =>
          hnd.1 ((List.append_cancel_left he) ▸ List.mem_map_of_mem Prod.fst hm))
      rw [hother]
      exact lookupA_setA_self _ _ _
    · have hts' : lookupA rest k = some ts := by
        simp only [lookupA, hk, if_false] at hts
        exact hts
      obtain ⟨cur2, hcur2, hm2⟩ := ih _ _ hrest hnd.2 k ts hts'
      refine ⟨cur2, ?_, hm2⟩
      rw [← hcur2]
      symm
      exact lookupA_setA_ne _ _ _ _
        (fun he => hk (List.append_cancel_left he))

/-- _copy_edges is idempotent: running the same copy a second time against
its own result changes nothing, because every rebased edge is already
present and the present-edge filter removes it. -/
theorem copyEdges_idem (pre : List String) :
    ∀ src tgt m' : EdgeMapB, copyEdges pre src tgt = .ok m' →
      (src.map Prod.fst).Nodup →
      copyEdges pre src m' = .ok m' := by
  intro src
  induction src with
  | nil =>
    intro tgt m' h _
    rw [copyEdges_nil] at h
    simp only [Except.ok.injEq] at h
    subst h
    exact copyEdges_nil pre tgt
  | cons kv rest ih =>
    intro tgt m' h hnd
    obtain ⟨k1, ts1⟩ := kv
    simp only [List.map_cons, List.nodup_cons] at hnd
    obtain ⟨cur, hcur, hrest⟩ := copyEdges_cons_inv h
    have hm'key : lookupA m' (pre ++ k1) =
        some (cur ++ (ts1.map (rebaseE pre)).filter (fun e => decide (e ∉ cur))) := by
      have hother := copyEdges_lookup_other pre _ _ _ hrest (pre ++ k1)
        (fun kv2 hm he =>
          hnd.1 ((List.append_cancel_left he) ▸ List.mem_map_of_mem Prod.fst hm))
      rw [hother]
      exact lookupA_setA_self _ _ _
    have hfilter : (ts1.map (rebaseE pre)).filter
        (fun e => decide (e ∉
          cur ++ (ts1.map (rebaseE pre)).filter (fun e2 => decide (e2 ∉ cur)))) = [] := by
      refine List.filter_eq_nil_iff.mpr ?_
      intro e he
      simp only [decide_eq_true_eq, Decidable.not_not]
      by_cases hec : e ∈ cur
      · exact List.mem_append_left _ hec
      · refine List.mem_append_right _ ?_
        refine List.mem_filter.mpr ⟨he, ?_⟩
        simp [hec]
    rw [copyEdges_cons_eq hm'key, hfilter, List.append_nil,
      setA_self_id hm'key]
    exact ih _ _ hrest hnd.2

/-- C6: merging one blueprint's edge maps into another (the _copy_edges
half of union) rebases every copied edge by prepending the destination
prefix to both the edge-map key and the edge's target path, skips any
rebased edge structurally equal to one already present at that key, is
idempotent (merging the same source twice yields the same edge maps as
merging it once), and retains distinct edges between the same node pair
that differ in target parameter. -/
theorem c6_union_edges (pre : List String) (src tgt g1 : BGraph)
    (hnd : (src.down.map Prod.fst).Nodup) (hnu : (src.up.map Prod.fst).Nodup)
    (h : copyBothEdges pre src tgt = .ok g1) :
    copyBothEdges pre src g1 = .ok g1 ∧
    (∀ k ts, lookupA src.down k = some ts →
      ∃ cur, lookupA tgt.down (pre ++ k) = some cur ∧
        lookupA g1.down (pre ++ k) =
          some (cur ++ (ts.map (rebaseE pre)).filter (fun e => decide (e ∉ cur))) ∧
        ∀ e ∈ ts, rebaseE pre e ∈
          cur ++ (ts.map (rebaseE pre)).filter (fun e2 => decide (e2 ∉ cur))) ∧
    (∀ k ts, lookupA src.up k = some ts →
      ∃ cur, lookupA tgt.up (pre ++ k) = some cur ∧
        lookupA g1.up (pre ++ k) =
          some (cur ++ (ts.map (rebaseE pre)).filter (fun e => decide (e ∉ cur))) ∧
        ∀ e ∈ ts, rebaseE pre e ∈
          cur ++ (ts.map (rebaseE pre)).filter (fun e2 => decide (e2 ∉ cur))) := by
  unfold copyBothEdges at h
  cases hD : copyEdges pre src.down tgt.down with
  | error e => rw [hD] at h; cases h
  | ok d =>
    rw [hD] at h
    cases hU : copyEdges pre src.up tgt.up with
    | error e => rw [hU] at h; cases h
    | ok u =>
      rw [hU] at h
      simp only [Except.ok.injEq] at h
      subst h
      have hgd : copyEdges pre src.down d = .ok d := copyEdges_idem pre _ _ _ hD hnd
      have hgu : copyEdges pre src.up u = .ok u := copyEdges_idem pre _ _ _ hU hnu
      refine ⟨?_, ?_, ?_⟩
      · unfold copyBothEdges
        simp only [hgd, hgu]
      · intro k ts hts
        obtain ⟨cur, hcur, hkey⟩ := copyEdges_lookup_key pre _ _ _ hD hnd k ts hts
        refine ⟨cur, hcur, hkey, ?_⟩
        intro e he
        by_cases hec : rebaseE pre e ∈ cur
        · exact List.mem_append_left _ hec
        · refine List.mem_append_right _ ?_
          refine List.mem_filter.mpr ⟨List.mem_map_of_mem _ he, ?_⟩
          simp [hec]
      · intro k ts hts
        obtain ⟨cur, hcur, hkey⟩ := copyEdges_lookup_key pre _ _ _ hU hnu k ts hts
        refine ⟨cur, hcur, hkey, ?_⟩
        intro e he
        by_cases hec : rebaseE pre e ∈ cur
        · exact List.mem_append_left _ hec
        · refine List.mem_append_right _ ?_
          refine List.mem_filter.mpr ⟨List.mem_map_of_mem _ he, ?_⟩
          simp [hec]

/-- Closed instance of c6_union_edges: merging the two-edge blueprint
(plain edge and parameter-targeted edge between the same pair) under
prefix n; re-merging the already-merged result changes nothing, and both
distinct edges are present exactly once. -/
theorem c6_union_edges_witness :
    (exSrcBP.down.map Prod.fst).Nodup ∧
    copyBothEdges ["n"] exSrcBP exMergedBP = .ok exMergedBP ∧
    List.count ((["n", "b"], none) : EdgeB)
      ((lookupA exMergedBP.down ["n", "a"]).getD []) = 1 ∧
    List.count ((["n", "b"], some "p") : EdgeB)
      ((lookupA exMergedBP.down ["n", "a"]).getD []) = 1 := by
  have hc := c6_union_edges ["n"] exSrcBP exTgtBP exMergedBP
    (by decide) (by decide) rfl
  exact ⟨by decide, hc.1, by decide, by decide⟩

theorem grun_setPar_inv {g : CGraph} {f : Nat} {F : CtxForest}
    {ks : List (String × Value)} {s s' : MState} {tr : List Nat}
    (h : grun g (f + 1) (.setPar F ks) s = .ok (s', tr)) :
    ∃ s1 tr1 tr2,
      (if (ks.filter (fun kv => !(forestHasKey F kv.1))).isEmpty
        then Except.ok (s, ([] : List Nat))
        else grun g f (.setGlobF F (ks.filter (fun kv => !(forestHasKey F kv.1)))) s) =
        .ok (s1, tr1) ∧
      (if (ks.filter (fun kv => forestHasKey F kv.1)).isEmpty
        then Except.ok (s1, ([] : List Nat))
        else grun g f (.setSpec F (ks.filter (fun kv => forestHasKey F kv.1))
          (ks.filter (fun kv => !(forestHasKey F kv.1)))) s1) = .ok (s', tr2) ∧
      tr = tr1 ++ tr2 := by
  simp only [grun] at h
  cases hA : (if (ks.filter (fun kv => !(forestHasKey F kv.1))).isEmpty
      then Except.ok (s, ([] : List Nat))
      else grun g f (.setGlobF F (ks.filter (fun kv => !(forestHasKey F kv.1)))) s) with
  | error e => rw [hA] at h; cases h
  | ok out1 =>
    obtain ⟨s1, tr1⟩ := out1
    rw [hA] at h
    dsimp only at h
    cases hB : (if (ks.filter (fun kv => forestHasKey F kv.1)).isEmpty
        then Except.ok (s1, ([] : List Nat))
        else grun g f (.setSpec F (ks.filter (fun kv => forestHasKey F kv.1))
          (ks.filter (fun kv => !(forestHasKey F kv.1)))) s1) with
    | error e => rw [hB] at h; cases h
    | ok out2 =>
      obtain ⟨s2, tr2⟩ := out2
      rw [hB] at h
      simp only [Except.ok.injEq, Prod.mk.injEq] at h
      obtain ⟨h1, h2⟩ := h
      subst h1
      subst h2
      exact ⟨s1, tr1, tr2, rfl, hB, rfl⟩

theorem grun_setGlobF_nil_inv {g : CGraph} {f : Nat}
    {gl : List (String × Value)} {s s' : MState} {tr : List Nat}
    (h : grun g (f + 1) (.setGlobF .fnil gl) s = .ok (s', tr)) :
    s' = s ∧ tr = [] := by
  simp only [grun] at h
  simp only [Except.ok.injEq, Prod.mk.injEq] at h
  exact ⟨h.1.symm, h.2.symm⟩

theorem grun_setGlobF_leaf_inv {g : CGraph} {f : Nat} {nm : String} {n : Nat}
    {rest : CtxForest} {gl : List (String × Value)} {s s' : MState}
    {tr : List Nat}
    (h : grun g (f + 1) (.setGlobF (.fcons nm (.leaf n) rest) gl) s = .ok (s', tr)) :
    ∃ s2 tr1 tr2,
      inval g f [n]
        { s with kwargs := updAt s.kwargs n (setKwargsFn (g.spec n) (s.kwargs n) gl false) } =
        .ok (s2, tr1) ∧
      grun g f (.setGlobF rest gl) s2 = .ok (s', tr2) ∧
      tr = tr1 ++ tr2 := by
  simp only [grun] at h
  cases hA : inval g f [n]
      { s with kwargs := updAt s.kwargs n (setKwargsFn (g.spec n) (s.kwargs n) gl false) } with
  | error e => rw [hA] at h; cases h
  | ok out1 =>
    obtain ⟨s2, tr1⟩ := out1
    rw [hA] at h
    dsimp only at h
    cases hB : grun g f (.setGlobF rest gl) s2 with
    | error e => rw [hB] at h; cases h
    | ok out2 =>
      obtain ⟨s3, tr2⟩ := out2
      rw [hB] at h
      simp only [Except.ok.injEq, Prod.mk.injEq] at h
      obtain ⟨h1, h2⟩ := h
      subst h1
      subst h2
      exact ⟨s2, tr1, tr2, rfl, hB, rfl⟩

theorem grun_setGlobF_grp_inv {g : CGraph} {f : Nat} {nm : String}
    {F2 rest : CtxForest} {gl : List (String × Value)} {s s' : MState}
    {tr : List Nat}
    (h : grun g (f + 1) (.setGlobF (.fcons nm (.grp F2) rest) gl) s = .ok (s', tr)) :
    ∃ s2 tr1 tr2,
      grun g f (.setGlobF F2 gl) s = .ok (s2, tr1) ∧
      grun g f (.setGlobF rest gl) s2 = .ok (s', tr2) ∧
      tr = tr1 ++ tr2 := by
  simp only [grun] at h
  cases hA : grun g f (.setGlobF F2 gl) s with
  | error e => rw [hA] at h; cases h
  | ok out1 =>
    obtain ⟨s2, tr1⟩ := out1
    rw [hA] at h
    dsimp only at h
    cases hB : grun g f (.setGlobF rest gl) s2 with
    | error e => rw [hB] at h; cases h
    | ok out2 =>
      obtain ⟨s3, tr2⟩ := out2
      rw [hB] at h
      simp only [Except.ok.injEq, Prod.mk.injEq] at h
      obtain ⟨h1, h2⟩ := h
      subst h1
      subst h2
      exact ⟨s2, tr1, tr2, rfl, hB, rfl⟩

theorem grun_setSpec_nil_inv {g : CGraph} {f : Nat} {F : CtxForest}
    {gl : List (String × Value)} {s s' : MState} {tr : List Nat}
    (h : grun g (f + 1) (.setSpec F [] gl) s = .ok (s', tr)) :
    s' = s ∧ tr = [] := by
  simp only [grun] at h
  simp only [Except.ok.injEq, Prod.mk.injEq] at h
  exact ⟨h.1.symm, h.2.symm⟩

theorem grun_setSpec_cons_params_inv {g : CGraph} {f : Nat} {F : CtxForest}
    {k : String} {a : List Value} {kw : List (String × Value)}
    {rest : List (String × Value)} {gl : List (String × Value)}
    {s s' : MState} {tr : List Nat}
    (h : grun g (f + 1) (.setSpec F ((k, Value.vparams a kw) :: rest) gl) s =
      .ok (s', tr)) :
    ∃ n s1 tr1 tr2,
      lookupForest F k = some (.leaf n) ∧
      setParamsN g f n a (updA gl kw) s = .ok (s1, tr1) ∧
      grun g f (.setSpec F rest gl) s1 = .ok (s', tr2) ∧
      tr = tr1 ++ tr2 := by
  simp only [grun] at h
  cases hL : lookupForest F k with
  | none => rw [hL] at h; cases h
  | some it =>
    cases it with
    | grp F2 => rw [hL] at h; cases h
    | leaf n =>
      rw [hL] at h
      dsimp only at h
      cases hA : setParamsN g f n a (updA gl kw) s with
      | error e => rw [hA] at h; cases h
      | ok out1 =>
        obtain ⟨s1, tr1⟩ := out1
        rw [hA] at h
        dsimp only at h
        cases hB : grun g f (.setSpec F rest gl) s1 with
        | error e => rw [hB] at h; cases h
        | ok out2 =>
          obtain ⟨s2, tr2⟩ := out2
          rw [hB] at h
          simp only [Except.ok.injEq, Prod.mk.injEq] at h
          obtain ⟨h1, h2⟩ := h
          subst h1
          subst h2
          exact ⟨n, s1, tr1, tr2, rfl, hA, hB, rfl⟩

theorem grun_setSpec_cons_dict_inv {g : CGraph} {f : Nat} {F : CtxForest}
    {k : String} {en : List (String × Value)} {rest : List (String × Value)}
    {gl : List (String × Value)} {s s' : MState} {tr : List Nat}
    (h : grun g (f + 1) (.setSpec F ((k, Value.vdict en) :: rest) gl) s =
      .ok (s', tr)) :
    ∃ F2 s1 tr1 tr2,
      lookupForest F k = some (.grp F2) ∧
      grun g f (.setSpec F2 en gl) s = .ok (s1, tr1) ∧
      grun g f (.setSpec F rest gl) s1 = .ok (s', tr2) ∧
      tr = tr1 ++ tr2 := by
  simp only [grun] at h
  cases hL : lookupForest F k with
  | none => rw [hL] at h; cases h
  | some it =>
    cases it with
    | leaf n => rw [hL] at h; cases h
    | grp F2 =>
      rw [hL] at h
      dsimp only at h
      cases hA : grun g f (.setSpec F2 en gl) s with
      | error e => rw [hA] at h; cases h
      | ok out1 =>
        obtain ⟨s1, tr1⟩ := out1
        rw [hA] at h
        dsimp only at h
        cases hB : grun g f (.setSpec F rest gl) s1 with
        | error e => rw [hB] at h; cases h
        | ok out2 =>
          obtain ⟨s2, tr2⟩ := out2
          rw [hB] at h
          simp only [Except.ok.injEq, Prod.mk.injEq] at h
          obtain ⟨h1, h2⟩ := h
          subst h1
          subst h2
          exact ⟨F2, s1, tr1, tr2, rfl, hA, hB, rfl⟩

theorem grun_setSpec_cons_plain_false {g : CGraph} {f : Nat} {F : CtxForest}
    {k : String} {v : Value} {rest : List (String × Value)}
    {gl : List (String × Value)} {s s' : MState} {tr : List Nat}
    (hv1 : ∀ a kw, v ≠ Value.vparams a kw) (hv2 : ∀ en, v ≠ Value.vdict en)
    (h : grun g (f + 1) (.setSpec F ((k, v) :: rest) gl) s = .ok (s', tr)) :
    False := by
  cases v with
  | vparams a kw => exact hv1 a kw rfl
  | vdict en => exact hv2 en rfl
  | vint x => simp only [grun] at h; cases h
  | vstr x => simp only [grun] at h; cases h
  | vnone => simp only [grun] at h; cases h

theorem setA_of_not_mem {κ α : Type} [DecidableEq κ]
    (d : List (κ × α)) (k : κ) (v : α) (h : k ∉ d.map Prod.fst) :
    setA d k v = d ++ [(k, v)] := by
  induction d with
  | nil => rfl
  | cons hd tl ih =>
    simp only [List.map_cons, List.mem_cons] at h
    push_neg at h
    have h1 : ¬ hd.1 = k := fun hh => h.1 hh.symm
    simp [setA, h1, ih h.2]

theorem setA_keys_nodup {κ α : Type} [DecidableEq κ]
    (d : List (κ × α)) (k : κ) (v : α) (h : (d.map Prod.fst).Nodup) :
    ((setA d k v).map Prod.fst).Nodup := by
  by_cases hk : k ∈ d.map Prod.fst
  · rw [setA_keys_of_mem d k v hk]; exact h
  · rw [setA_of_not_mem d k v hk]
    simp only [List.map_append, List.map_cons, List.map_nil]
    rw [List.nodup_append]
    refine ⟨h, List.nodup_singleton k, ?_⟩
    intro a ha hb
    rw [List.mem_singleton] at hb
    subst hb
    exact hk ha

theorem updA_keys_nodup {κ α : Type} [DecidableEq κ]
    (d e : List (κ × α)) (h : (d.map Prod.fst).Nodup) :
    ((updA d e).map Prod.fst).Nodup := by
  induction e generalizing d with
  | nil => exact h
  | cons hd tl ih =>
    have step : updA d (hd :: tl) = updA (setA d hd.1 hd.2) tl := by
      simp [updA]
    rw [step]
    exact ih _ (setA_keys_nodup _ _ _ h)

theorem setKwargsFn_nil (spec : ArgsSpec) (cur : List (String × Value)) :
    setKwargsFn spec cur [] false = cur := by
  cases hsk : spec.keywords <;> simp [setKwargsFn, hsk, updA]

theorem setKwargsFn_replace_true (spec : ArgsSpec)
    (cur kw : List (String × Value)) :
    setKwargsFn spec cur kw true = setKwargsFn spec [] kw true := rfl

theorem entryLeaves_fcons (nm : String) (it : CtxItem) (rest : CtxForest)
    (k : String) :
    entryLeaves (.fcons nm it rest) k =
      if nm = k then leavesI it else entryLeaves rest k := by
  by_cases h : nm = k <;> simp [entryLeaves, lookupForest, h]

theorem entryLeaves_of_leaf {F : CtxForest} {k : String} {n : Nat}
    (h : lookupForest F k = some (.leaf n)) : entryLeaves F k = [n] := by
  unfold entryLeaves
  rw [h]
  rfl

theorem entryLeaves_of_grp {F : CtxForest} {k : String} {F2 : CtxForest}
    (h : lookupForest F k = some (.grp F2)) : entryLeaves F k = leavesF F2 := by
  unfold entryLeaves
  rw [h]
  rfl

theorem entryLeaves_subset : ∀ (F : CtxForest) (k : String) (n : Nat),
    n ∈ entryLeaves F k → n ∈ leavesF F
  | .fnil, k, n, h => by simp [entryLeaves, lookupForest] at h
  | .fcons nm it rest, k, n, h => by
    rw [entryLeaves_fcons] at h
    by_cases hk : nm = k
    · rw [if_pos hk] at h
      exact List.mem_append_left _ h
    · rw [if_neg hk] at h
      exact List.mem_append_right _ (entryLeaves_subset rest k n h)

theorem entryLeaves_disjoint : ∀ (F : CtxForest), (leavesF F).Nodup →
    ∀ (k1 k2 : String), k1 ≠ k2 → ∀ n, n ∈ entryLeaves F k1 →
    n ∉ entryLeaves F k2
  | .fnil, _, k1, k2, hk, n, h1 => by simp [entryLeaves, lookupForest] at h1
  | .fcons nm it rest, hnd, k1, k2, hk, n, h1 => by
    intro h2
    have hnd2 : (leavesI it ++ leavesF rest).Nodup := hnd
    rw [List.nodup_append] at hnd2
    obtain ⟨hndI, hndR, hdisj⟩ := hnd2
    rw [entryLeaves_fcons] at h1 h2
    by_cases h1k : nm = k1
    · rw [if_pos h1k] at h1
      by_cases h2k : nm = k2
      · exact hk (h1k ▸ h2k)
      · rw [if_neg h2k] at h2
        exact hdisj h1 (entryLeaves_subset rest k2 n h2)
    · rw [if_neg h1k] at h1
      by_cases h2k : nm = k2
      · rw [if_pos h2k] at h2
        exact hdisj h2 (entryLeaves_subset rest k1 n h1)
      · rw [if_neg h2k] at h2
        exact entryLeaves_disjoint rest hndR k1 k2 hk n h1 h2

theorem mem_specLeaves {F : CtxForest} {sp : List (String × Value)} {n : Nat} :
    n ∈ specLeaves F sp ↔ ∃ kv, kv ∈ sp ∧ n ∈ entryLeaves F kv.1 := by
  induction sp with
  | nil => simp [specLeaves]
  | cons hd tl ih =>
    simp only [specLeaves]
    constructor
    · intro h
      rcases List.mem_append.mp h with h | h
      · exact ⟨hd, List.mem_cons_self _ _, h⟩
      · obtain ⟨kv, hkv, hn⟩ := ih.mp h
        exact ⟨kv, List.mem_cons_of_mem _ hkv, hn⟩
    · rintro ⟨kv, hkv, hn⟩
      rcases List.mem_cons.mp hkv with he | he
      · subst he
        exact List.mem_append.mpr (Or.inl hn)
      · exact List.mem_append.mpr (Or.inr (ih.mpr ⟨kv, he, hn⟩))

theorem specLeaves_sub {F : CtxForest} {sp : List (String × Value)} {n : Nat}
    (h : n ∈ specLeaves F sp) : n ∈ leavesF F := by
  obtain ⟨kv, _, hn⟩ := mem_specLeaves.mp h
  exact entryLeaves_subset F kv.1 n hn

/-- Effect of NodeGroup._set_global_params: every descendant leaf's stored
kwargs are merged (replace=False) with the global entries, every other
node's kwargs - and all stored args - are untouched. -/
theorem setGlobF_effect (g : CGraph) :
    ∀ f F gl s s' tr, grun g f (.setGlobF F gl) s = .ok (s', tr) →
      (leavesF F).Nodup →
      (∀ n, n ∈ leavesF F →
        s'.kwargs n = setKwargsFn (g.spec n) (s.kwargs n) gl false) ∧
      (∀ m, m ∉ leavesF F → s'.kwargs m = s.kwargs m) ∧
      s'.args = s.args := by
  intro f
  induction f with
  | zero =>
    intro F gl s s' tr h
    simp [grun] at h
  | succ f ih =>
    intro F gl s s' tr h hnd
    cases F with
    | fnil =>
      obtain ⟨hs, _⟩ := grun_setGlobF_nil_inv h
      subst hs
      refine ⟨?_, fun _ _ => rfl, rfl⟩
      intro n hn
      simp [leavesF] at hn
    | fcons nm it rest =>
      cases it with
      | leaf n =>
        obtain ⟨s2, tr1, tr2, hInv, hRest, _⟩ := grun_setGlobF_leaf_inv h
        have hnd2 : (n :: leavesF rest).Nodup := hnd
        rw [List.nodup_cons] at hnd2
        obtain ⟨hnmem, hndR⟩ := hnd2
        obtain ⟨P1, P2, P3⟩ := ih rest gl s2 s' tr2 hRest hndR
        have hB := inval_basic g f [n]
          { s with kwargs := updAt s.kwargs n (setKwargsFn (g.spec n) (s.kwargs n) gl false) }
          s2 tr1 hInv
        have hkw2 : s2.kwargs =
            updAt s.kwargs n (setKwargsFn (g.spec n) (s.kwargs n) gl false) :=
          hB.2.1.2
        have hargs2 : s2.args = s.args := hB.2.1.1
        refine ⟨?_, ?_, ?_⟩
        · intro m hm
          have hm' : m = n ∨ m ∈ leavesF rest := List.mem_cons.mp hm
          rcases hm' with he | he
          · subst he
            rw [P2 m hnmem, hkw2]
            exact updAt_self _ _ _
          · have hmn : m ≠ n := fun hc => hnmem (hc ▸ he)
            rw [P1 m he]
            rw [hkw2]
            rw [updAt_ne _ _ _ _ hmn]
        · intro m hm
          have hm1 : m ≠ n := fun hc => hm (hc ▸ List.mem_cons_self _ _)
          have hm2 : m ∉ leavesF rest :=
            fun hc => hm (List.mem_cons_of_mem _ hc)
          rw [P2 m hm2, hkw2, updAt_ne _ _ _ _ hm1]
        · rw [P3, hargs2]
      | grp F2 =>
        obtain ⟨s2, tr1, tr2, hA, hRest, _⟩ := grun_setGlobF_grp_inv h
        have hnd2 : (leavesF F2 ++ leavesF rest).Nodup := hnd
        rw [List.nodup_append] at hnd2
        obtain ⟨hndI, hndR, hdisj⟩ := hnd2
        obtain ⟨Q1, Q2, Q3⟩ := ih F2 gl s s2 tr1 hA hndI
        obtain ⟨P1, P2, P3⟩ := ih rest gl s2 s' tr2 hRest hndR
        refine ⟨?_, ?_, ?_⟩
        · intro m hm
          have hm' : m ∈ leavesF F2 ∨ m ∈ leavesF rest := List.mem_append.mp hm
          rcases hm' with he | he
          · have hnr : m ∉ leavesF rest := fun hc => hdisj he hc
            rw [P2 m hnr, Q1 m he]
          · have hnf : m ∉ leavesF F2 := fun hc => hdisj hc he
            rw [P1 m he, Q2 m hnf]
        · intro m hm
          have hm1 : m ∉ leavesF F2 :=
            fun hc => hm (List.mem_append_left _ hc)
          have hm2 : m ∉ leavesF rest :=
            fun hc => hm (List.mem_append_right _ hc)
          rw [P2 m hm2, Q2 m hm1]
        · rw [P3, Q3]

/-- Effect of NodeGroup._set_params_spec: nodes under no specific entry are
untouched (kwargs and args alike); a specific `_params` entry naming a
top-level leaf replaces that leaf's args with the bundle's args and its
kwargs with dict(global_params, **bundle_kwargs) filtered through
_set_kwargs with replace=True. -/
theorem setSpec_effect (g : CGraph) :
    ∀ f F sp gl s s' tr, grun g f (.setSpec F sp gl) s = .ok (s', tr) →
      (∀ m, m ∉ specLeaves F sp →
        s'.kwargs m = s.kwargs m ∧ s'.args m = s.args m) ∧
      ((sp.map Prod.fst).Nodup → (leavesF F).Nodup →
        ∀ k a kw n, (k, Value.vparams a kw) ∈ sp →
          lookupForest F k = some (CtxItem.leaf n) →
          s'.args n = a ∧
          s'.kwargs n = setKwargsFn (g.spec n) [] (updA gl kw) true) := by
  intro f
  induction f with
  | zero =>
    intro F sp gl s s' tr h
    simp [grun] at h
  | succ f ih =>
    intro F sp gl s s' tr h
    cases sp with
    | nil =>
      obtain ⟨hs, _⟩ := grun_setSpec_nil_inv h
      subst hs
      refine ⟨fun m _ => ⟨rfl, rfl⟩, ?_⟩
      intro _ _ k a kw n hmem _
      cases hmem
    | cons hd rest =>
      obtain ⟨k, v⟩ := hd
      cases v with
      | vint x => simp [grun] at h
      | vstr x => simp [grun] at h
      | vnone => simp [grun] at h
      | vparams a kw =>
        obtain ⟨n0, s1, tr1, tr2, hL, hSet, hRest, _⟩ :=
          grun_setSpec_cons_params_inv h
        obtain ⟨frameR, mainR⟩ := ih F rest gl s1 s' tr2 hRest
        unfold setParamsN at hSet
        have hB := inval_basic g f [n0]
          { s with args := updAt s.args n0 a,
                   kwargs := updAt s.kwargs n0
                     (setKwargsFn (g.spec n0) (s.kwargs n0) (updA gl kw) true) }
          s1 tr1 hSet
        have hargs1 : s1.args = updAt s.args n0 a := hB.2.1.1
        have hkw1 : s1.kwargs = updAt s.kwargs n0
            (setKwargsFn (g.spec n0) (s.kwargs n0) (updA gl kw) true) :=
          hB.2.1.2
        constructor
        · intro m hm
          simp only [specLeaves, List.mem_append] at hm
          push_neg at hm
          obtain ⟨hm1, hm2⟩ := hm
          rw [entryLeaves_of_leaf hL, List.mem_singleton] at hm1
          obtain ⟨hf1, hf2⟩ := frameR m hm2
          refine ⟨?_, ?_⟩
          · rw [hf1, hkw1, updAt_ne _ _ _ _ hm1]
          · rw [hf2, hargs1, updAt_ne _ _ _ _ hm1]
        · intro hndSp hndL k' a' kw' n' hmem hL'
          rcases List.mem_cons.mp hmem with he | he
          · have hk' : k' = k := congrArg Prod.fst he
            have hv : Value.vparams a' kw' = Value.vparams a kw :=
              congrArg Prod.snd he
            injection hv with ha hkwv
            subst hk'
            subst ha
            subst hkwv
            rw [hL] at hL'
            injection hL' with hL2
            injection hL2 with hL3
            subst hL3
            have hndSp2 : (k' :: rest.map Prod.fst).Nodup := hndSp
            rw [List.nodup_cons] at hndSp2
            obtain ⟨hknotin, _⟩ := hndSp2
            have hnotin : n0 ∉ specLeaves F rest := by
              intro hin
              obtain ⟨kv, hkv, hnE⟩ := mem_specLeaves.mp hin
              have hkne : k' ≠ kv.1 := by
                intro hEq
                exact hknotin (hEq ▸ List.mem_map_of_mem Prod.fst hkv)
              have hself : n0 ∈ entryLeaves F k' := by
                rw [entryLeaves_of_leaf hL]
                exact List.mem_singleton.mpr rfl
              exact entryLeaves_disjoint F hndL k' kv.1 hkne n0 hself hnE
            obtain ⟨hf1, hf2⟩ := frameR n0 hnotin
            refine ⟨?_, ?_⟩
            · rw [hf2, hargs1]
              exact updAt_self _ _ _
            · rw [hf1, hkw1, updAt_self,
                setKwargsFn_replace_true]
          · have hndSp2 : (k :: rest.map Prod.fst).Nodup := hndSp
            rw [List.nodup_cons] at hndSp2
            exact mainR hndSp2.2 hndL k' a' kw' n' he hL'
      | vdict en =>
        obtain ⟨F2, s1, tr1, tr2, hL, hNest, hRest, _⟩ :=
          grun_setSpec_cons_dict_inv h
        obtain ⟨frameN, _⟩ := ih F2 en gl s s1 tr1 hNest
        obtain ⟨frameR, mainR⟩ := ih F rest gl s1 s' tr2 hRest
        constructor
        · intro m hm
          simp only [specLeaves, List.mem_append] at hm
          push_neg at hm
          obtain ⟨hm1, hm2⟩ := hm
          rw [entryLeaves_of_grp hL] at hm1
          have hmN : m ∉ specLeaves F2 en := fun hc => hm1 (specLeaves_sub hc)
          obtain ⟨hn1, hn2⟩ := frameN m hmN
          obtain ⟨hf1, hf2⟩ := frameR m hm2
          exact ⟨hf1.trans hn1, hf2.trans hn2⟩
        · intro hndSp hndL k' a' kw' n' hmem hL'
          rcases List.mem_cons.mp hmem with he | he
          · have hv : Value.vparams a' kw' = Value.vdict en :=
              congrArg Prod.snd he
            cases hv
          · have hndSp2 : (k :: rest.map Prod.fst).Nodup := hndSp
            rw [List.nodup_cons] at hndSp2
            exact mainR hndSp2.2 hndL k' a' kw' n' he hL'

/-- NodeGroup's parameter routing preserves the downstream-closure
invariant: every kwargs/args mutation is immediately followed by an
invalidation of the mutated node. -/
theorem grun_invd (g : CGraph) :
    ∀ f t s s' tr, grun g f t s = .ok (s', tr) → InvD g s → InvD g s' := by
  intro f
  induction f with
  | zero =>
    intro t s s' tr h
    simp [grun] at h
  | succ f ih =>
    intro t s s' tr h hinv
    cases t with
    | setPar F ks =>
      obtain ⟨s1, tr1, tr2, hA, hB, _⟩ := grun_setPar_inv h
      have hinv1 : InvD g s1 := by
        by_cases hgl : (ks.filter (fun kv => !(forestHasKey F kv.1))).isEmpty = true
        · rw [if_pos hgl] at hA
          simp only [Except.ok.injEq, Prod.mk.injEq] at hA
          rw [← hA.1]
          exact hinv
        · rw [if_neg hgl] at hA
          exact ih _ _ _ _ hA hinv
      by_cases hsp : (ks.filter (fun kv => forestHasKey F kv.1)).isEmpty = true
      · rw [if_pos hsp] at hB
        simp only [Except.ok.injEq, Prod.mk.injEq] at hB
        rw [← hB.1]
        exact hinv1
      · rw [if_neg hsp] at hB
        exact ih _ _ _ _ hB hinv1
    | setGlobF F gl =>
      cases F with
      | fnil =>
        obtain ⟨hs, _⟩ := grun_setGlobF_nil_inv h
        subst hs
        exact hinv
      | fcons nm it rest =>
        cases it with
        | leaf n =>
          obtain ⟨s2, tr1, tr2, hInv, hRest, _⟩ := grun_setGlobF_leaf_inv h
          have hinv2 : InvD g s2 :=
            inval_invd g f [n] _ s2 tr1 hInv
              (fun p q hp hq => Or.inl (hinv p q hp hq))
          exact ih _ _ _ _ hRest hinv2
        | grp F2 =>
          obtain ⟨s2, tr1, tr2, hA, hRest, _⟩ := grun_setGlobF_grp_inv h
          exact ih _ _ _ _ hRest (ih _ _ _ _ hA hinv)
    | setSpec F sp gl =>
      cases sp with
      | nil =>
        obtain ⟨hs, _⟩ := grun_setSpec_nil_inv h
        subst hs
        exact hinv
      | cons hd rest =>
        obtain ⟨k, v⟩ := hd
        cases v with
        | vint x => simp [grun] at h
        | vstr x => simp [grun] at h
        | vnone => simp [grun] at h
        | vparams a kw =>
          obtain ⟨n0, s1, tr1, tr2, hL, hSet, hRest, _⟩ :=
            grun_setSpec_cons_params_inv h
          unfold setParamsN at hSet
          have hinv1 : InvD g s1 :=
            inval_invd g f [n0] _ s1 tr1 hSet
              (fun p q hp hq => Or.inl (hinv p q hp hq))
          exact ih _ _ _ _ hRest hinv1
        | vdict en =>
          obtain ⟨F2, s1, tr1, tr2, hL, hNest, hRest, _⟩ :=
            grun_setSpec_cons_dict_inv h
          exact ih _ _ _ _ hRest (ih _ _ _ _ hNest hinv)

/-- C4: NodeGroup.set with mixed global/specific entries (NodeGroup
._set_params / _set_global_params / _set_params_spec with NodeState
._set_kwargs).  The supplied kwargs split by whether the key names a direct
child; the global entries (keys naming no child) are applied first to every
descendant leaf node - merged fully into its stored kwargs when the node's
signature has a kwargs catch-all, otherwise restricted to keys on its
declared parameter list, so a node whose signature rejects a keyword never
receives it - and each specific entry's parameter bundle is applied
afterwards to the named leaf with the global entries folded in underneath
(dict(global_params, **bundle_kwargs), args and kwargs replaced), so
node-specific values win on key conflicts; leaves named by no specific
entry keep their post-global-pass state. -/
theorem c4_group_set_routing (g : CGraph) (f : Nat) (F : CtxForest)
    (ks : List (String × Value)) (s s' : MState) (tr : List Nat)
    (hrun : groupSet g f F ks s = .ok (s', tr))
    (hndK : (ks.map Prod.fst).Nodup)
    (hndL : (leavesF F).Nodup)
    (hkwD : ∀ k a kw, (k, Value.vparams a kw) ∈ ks → (kw.map Prod.fst).Nodup) :
    ∃ s1 : MState,
      (∀ n, n ∈ leavesF F →
        s1.kwargs n =
          setKwargsFn (g.spec n) (s.kwargs n)
            (ks.filter (fun kv => !(forestHasKey F kv.1))) false) ∧
      (∀ m, m ∉ leavesF F → s1.kwargs m = s.kwargs m) ∧
      s1.args = s.args ∧
      (∀ n, n ∈ leavesF F → (g.spec n).keywords.isSome = true → ∀ key,
        lookupA (s1.kwargs n) key =
          (lookupA (ks.filter (fun kv => !(forestHasKey F kv.1))) key).or
            (lookupA (s.kwargs n) key)) ∧
      (∀ n, n ∈ leavesF F → (g.spec n).keywords = none → ∀ key,
        (g.spec n).args.contains key = false →
        lookupA (s1.kwargs n) key = lookupA (s.kwargs n) key) ∧
      (∀ k a kw n, (k, Value.vparams a kw) ∈ ks → forestHasKey F k = true →
        lookupForest F k = some (CtxItem.leaf n) →
        s'.args n = a ∧
        s'.kwargs n =
          setKwargsFn (g.spec n) []
            (updA (ks.filter (fun kv => !(forestHasKey F kv.1))) kw) true ∧
        ∀ key, lookupA (s'.kwargs n) key =
          if accepts (g.spec n) key = true then
            (lookupA kw key).or
              (lookupA (ks.filter (fun kv => !(forestHasKey F kv.1))) key)
          else none) ∧
      (∀ m, (∀ kv, kv ∈ ks → forestHasKey F kv.1 = true →
          m ∉ entryLeaves F kv.1) →
        s'.kwargs m = s1.kwargs m ∧ s'.args m = s1.args m) := by
  cases f with
  | zero => simp [groupSet, grun] at hrun
  | succ f =>
    obtain ⟨s1, tr1, tr2, hA, hB, _⟩ := grun_setPar_inv hrun
    have hglsub : ((ks.filter (fun kv => !(forestHasKey F kv.1))).map
        Prod.fst).Sublist (ks.map Prod.fst) :=
      List.Sublist.map Prod.fst (List.filter_sublist ks)
    have hglnd := List.Nodup.sublist hglsub hndK
    have hstage1 :
        (∀ n, n ∈ leavesF F →
          s1.kwargs n =
            setKwargsFn (g.spec n) (s.kwargs n)
              (ks.filter (fun kv => !(forestHasKey F kv.1))) false) ∧
        (∀ m, m ∉ leavesF F → s1.kwargs m = s.kwargs m) ∧
        s1.args = s.args := by
      by_cases hgl : (ks.filter (fun kv => !(forestHasKey F kv.1))).isEmpty = true
      · rw [if_pos hgl] at hA
        simp only [Except.ok.injEq, Prod.mk.injEq] at hA
        have hs1 : s1 = s := hA.1.symm
        have hglempty : ks.filter (fun kv => !(forestHasKey F kv.1)) = [] :=
          List.isEmpty_iff.mp hgl
        refine ⟨?_, ?_, ?_⟩
        · intro n _
          rw [hs1, hglempty, setKwargsFn_nil]
        · intro m _
          rw [hs1]
        · rw [hs1]
      · rw [if_neg hgl] at hA
        exact setGlobF_effect g f F _ s s1 tr1 hA hndL
    obtain ⟨G1, G2, G3⟩ := hstage1
    have fact4 : ∀ n, n ∈ leavesF F → (g.spec n).keywords.isSome = true →
        ∀ key, lookupA (s1.kwargs n) key =
          (lookupA (ks.filter (fun kv => !(forestHasKey F kv.1))) key).or
            (lookupA (s.kwargs n) key) := by
      intro n hn hks key
      have h2 := lookupA_setKwargsFn (g.spec n) (s.kwargs n)
        (ks.filter (fun kv => !(forestHasKey F kv.1))) false key hglnd
      have hred : (if (false : Bool) = true then ([] : List (String × Value))
          else s.kwargs n) = s.kwargs n := rfl
      have hacc : accepts (g.spec n) key = true := by simp [accepts, hks]
      rw [G1 n hn, h2, hred, if_pos hacc]
    have fact5 : ∀ n, n ∈ leavesF F → (g.spec n).keywords = none →
        ∀ key, (g.spec n).args.contains key = false →
        lookupA (s1.kwargs n) key = lookupA (s.kwargs n) key := by
      intro n hn hknone key hcont
      have h2 := lookupA_setKwargsFn (g.spec n) (s.kwargs n)
        (ks.filter (fun kv => !(forestHasKey F kv.1))) false key hglnd
      have hred : (if (false : Bool) = true then ([] : List (String × Value))
          else s.kwargs n) = s.kwargs n := rfl
      have hacc : accepts (g.spec n) key = false := by
        simp only [accepts, hknone, Option.isSome_none, Bool.false_or]
        exact hcont
      have hacc2 : ¬ accepts (g.spec n) key = true := by
        rw [hacc]
        exact Bool.false_ne_true
      rw [G1 n hn, h2, hred, if_neg hacc2]
    by_cases hsp : (ks.filter (fun kv => forestHasKey F kv.1)).isEmpty = true
    · rw [if_pos hsp] at hB
      simp only [Except.ok.injEq, Prod.mk.injEq] at hB
      have hs' : s' = s1 := hB.1.symm
      refine ⟨s1, G1, G2, G3, fact4, fact5, ?_, ?_⟩
      · intro k a kw n hmem hhk _
        exfalso
        have hsmem : (k, Value.vparams a kw) ∈
            ks.filter (fun kv => forestHasKey F kv.1) :=
          List.mem_filter.mpr ⟨hmem, hhk⟩
        rw [List.isEmpty_iff.mp hsp] at hsmem
        cases hsmem
      · intro m _
        rw [hs']
        exact ⟨rfl, rfl⟩
    · rw [if_neg hsp] at hB
      obtain ⟨frameS, mainS⟩ := setSpec_effect g f F _ _ s1 s' tr2 hB
      have hspsub : ((ks.filter (fun kv => forestHasKey F kv.1)).map
          Prod.fst).Sublist (ks.map Prod.fst) :=
        List.Sublist.map Prod.fst (List.filter_sublist ks)
      have hspnd := List.Nodup.sublist hspsub hndK
      refine ⟨s1, G1, G2, G3, fact4, fact5, ?_, ?_⟩
      · intro k a kw n hmem hhk hLk
        have hsmem : (k, Value.vparams a kw) ∈
            ks.filter (fun kv => forestHasKey F kv.1) :=
          List.mem_filter.mpr ⟨hmem, hhk⟩
        obtain ⟨hargsN, hkwN⟩ := mainS hspnd hndL k a kw n hsmem hLk
        refine ⟨hargsN, hkwN, ?_⟩
        intro key
        have hupdnd : ((updA (ks.filter (fun kv => !(forestHasKey F kv.1)))
            kw).map Prod.fst).Nodup :=
          updA_keys_nodup _ kw hglnd
        have h2 := lookupA_setKwargsFn (g.spec n) []
          (updA (ks.filter (fun kv => !(forestHasKey F kv.1))) kw) true key
          hupdnd
        have hupd := lookupA_updA
          (ks.filter (fun kv => !(forestHasKey F kv.1))) kw key
          (hkwD k a kw hmem)
        rw [hkwN, h2]
        by_cases hacc : accepts (g.spec n) key = true
        · rw [if_pos hacc, if_pos hacc, hupd]
          have hnil : lookupA (if (true : Bool) = true then
              ([] : List (String × Value)) else []) key = none := rfl
          rw [hnil, Option.or_none]
        · rw [if_neg hacc, if_neg hacc]
          rfl
      · intro m hcond
        have hmS : m ∉ specLeaves F (ks.filter (fun kv => forestHasKey F kv.1)) := by
          intro hin
          obtain ⟨kv, hkv, hnE⟩ := mem_specLeaves.mp hin
          have hm2 := List.mem_filter.mp hkv
          exact hcond kv hm2.1 hm2.2 hnE
        exact frameS m hmS

/-- Closed instance of c4_group_set_routing: on the two-leaf group, the
mixed call routes the global `glob` and the x-specific bundle; the specific
bundle's args land on node 0 and its `glob` value overrides the global
one. -/
theorem c4_group_set_routing_witness :
    ∃ s' tr, groupSet exGC4 9 exFC4 exKsC4 exS0 = Except.ok (s', tr) ∧
      s'.args 0 = [Value.vint 7] ∧
      lookupA (s'.kwargs 0) "glob" = some (Value.vstr "N") ∧
      lookupA (s'.kwargs 0) "p" = some (Value.vstr "S") := by
  have hOk : (groupSet exGC4 9 exFC4 exKsC4 exS0).isOk = true := rfl
  cases hE : groupSet exGC4 9 exFC4 exKsC4 exS0 with
  | error e => rw [hE] at hOk; cases hOk
  | ok out =>
    obtain ⟨s', tr⟩ := out
    have hkwD : ∀ k a kw, (k, Value.vparams a kw) ∈ exKsC4 →
        (kw.map Prod.fst).Nodup := by
      intro k a kw hmem
      rcases List.mem_cons.mp hmem with he | hmem2
      · exact absurd (congrArg Prod.snd he) (by intro hc; cases hc)
      · rcases List.mem_cons.mp hmem2 with he | hmem3
        · have hv := congrArg Prod.snd he
          injection hv with _ hkwv
          subst hkwv
          decide
        · cases hmem3
    have h := c4_group_set_routing exGC4 9 exFC4 exKsC4 exS0 s' tr hE
      (by decide) (by decide) hkwD
    obtain ⟨s1, _, _, _, _, _, A6, _⟩ := h
    have hmem : ("x", Value.vparams [Value.vint 7]
        [("p", Value.vstr "S"), ("glob", Value.vstr "N")]) ∈ exKsC4 :=
      List.mem_cons_of_mem _ (List.mem_cons_self _ _)
    obtain ⟨hargs, hkw0, hkey⟩ := A6 "x" [Value.vint 7]
      [("p", Value.vstr "S"), ("glob", Value.vstr "N")] 0 hmem rfl rfl
    refine ⟨s', tr, rfl, hargs, ?_, ?_⟩
    · rw [hkey "glob"]
      rfl
    · rw [hkey "p"]
      rfl

/-- C10: the implicit invariant of every runtime instance.  In downstream
form (InvD: every downstream peer of a dirty node is dirty), equivalent
under the wiring's mirror property to the upstream form (InvU: every
upstream peer of a clean node is clean); it holds of the freshly
instantiated all-dirty state, and it is preserved by cached reads and
direct calls (run), by NodeState.set (setParamsN), by NodeState.update
(updateN), and by NodeGroup.set (groupSet); in an invariant state every
node downstream-reachable from a dirty node is dirty, which is what makes
_invalidate's already-dirty short-circuit sound. -/
theorem c10_invariant (g : CGraph) :
    (Mirror g → ∀ s : MState, InvD g s ↔ InvU g s) ∧
    (∀ s : MState, (∀ k, s.dirty k = true) → InvD g s) ∧
    (Mirror g → ∀ f t s r s' tr, run g f t s = .ok (r, s', tr) →
      InvD g s → InvD g s') ∧
    (∀ f i a kw s s' tr, setParamsN g f i a kw s = .ok (s', tr) →
      InvD g s → InvD g s') ∧
    (∀ f i kw s s' tr, updateN g f i kw s = .ok (s', tr) →
      InvD g s → InvD g s') ∧
    (∀ f F ks s s' tr, groupSet g f F ks s = .ok (s', tr) →
      InvD g s → InvD g s') ∧
    (∀ s, InvD g s → ∀ n m, ReachD g n m →
      s.dirty n = true → s.dirty m = true) := by
  refine ⟨?_, ?_, ?_, ?_, ?_, ?_, ?_⟩
  · intro hm s
    constructor
    · intro hd j hj u hu
      cases hcu : s.dirty u with
      | false => rfl
      | true =>
        exfalso
        have hdj : s.dirty j = true := hd u j hcu ((hm u j).mpr hu)
        rw [hj] at hdj
        exact Bool.false_ne_true hdj
    · intro hu i j hdi hij
      cases hcj : s.dirty j with
      | true => rfl
      | false =>
        exfalso
        have hci : s.dirty i = false := hu j hcj i ((hm i j).mp hij)
        rw [hdi] at hci
        cases hci
  · intro s hall i j _ _
    exact hall j
  · intro hm
    exact run_invd g hm
  · intro f i a kw s s' tr h hinv
    unfold setParamsN at h
    exact inval_invd g f [i] _ s' tr h
      (fun p q hp hq => Or.inl (hinv p q hp hq))
  · intro f i kw s s' tr h hinv
    unfold updateN at h
    exact inval_invd g f [i] _ s' tr h
      (fun p q hp hq => Or.inl (hinv p q hp hq))
  · intro f F ks s s' tr h hinv
    exact grun_invd g f (.setPar F ks) s s' tr h hinv
  · intro s hinv
    exact reach_dirty g s hinv

/-- Closed instance of c10_invariant on the two-node pipeline: the fresh
all-dirty state satisfies the invariant, in both its downstream and (via
the mirror property of the wiring) upstream forms. -/
theorem c10_invariant_witness :
    InvD exG2 exS0 ∧ InvU exG2 exS0 := by
  have h := c10_invariant exG2
  have hm : Mirror exG2 := by
    intro i j
    constructor
    · intro hj
      by_cases hi : i = 0
      · subst hi
        simp [exG2] at hj
        subst hj
        simp [exG2, upPeers, refPeer]
      · simp [exG2, hi] at hj
    · intro hj
      by_cases hj1 : j = 1
      · subst hj1
        simp [exG2, upPeers, refPeer] at hj
        subst hj
        simp [exG2]
      · simp [exG2, upPeers, hj1] at hj
  have h0 : InvD exG2 exS0 := h.2.1 exS0 (fun _ => rfl)
  exact ⟨h0, (h.1 hm exS0).mp h0⟩

end Pypeline
